import Mathlib

/-!
Verification development for pyqap (`pyqap.py`), a selective-backup tree
model.  The Python data model is shallowly embedded:

* `Entry` mirrors the Python `Entry` class.  Python discriminates files
  from directories by `children is None`; here the two constructors
  `Entry.file` / `Entry.dir` carry exactly the fields each kind uses
  (files have `full_size = None` in Python, so the `file` constructor
  has no `full_size` field).  `selected : Option Bool` mirrors the
  Python field (`none` is Qt's PartiallyChecked).
* Filesystem paths are lists of path segments relative to the scan
  root (Python joins them with `os.path.join`; the dict `Tree.entries`
  keyed by joined path is modelled by navigating the tree along the
  segments, which coincides with the dict for `os.fwalk` streams,
  where every directory is announced exactly once, under its parent).
* A scan stream is a list of `FwalkRec`, one per `os.fwalk` tuple;
  each file carries its `os.stat` outcome (`none` = FileNotFoundError).
-/

inductive Entry where
  | file (parent_dir : List String) (name : String) (size : Nat)
         (selected : Option Bool) (selected_size : Nat)
  | dir (parent_dir : List String) (name : String) (size : Nat) (full_size : Nat)
        (selected : Option Bool) (selected_size : Nat) (children : List Entry)
  deriving Repr

/-- The `name` field of an entry. -/
def Entry.nameOf : Entry → String
  | .file _ nm _ _ _ => nm
  | .dir _ nm _ _ _ _ _ => nm

/-- The `size` field (a file's byte size, a directory's own size). -/
def Entry.sizeOf' : Entry → Nat
  | .file _ _ sz _ _ => sz
  | .dir _ _ sz _ _ _ _ => sz

/-- The `selected` field (`none` = PartiallyChecked). -/
def Entry.selOf : Entry → Option Bool
  | .file _ _ _ sel _ => sel
  | .dir _ _ _ _ sel _ _ => sel

/-- The `selected_size` field. -/
def Entry.selSizeOf : Entry → Nat
  | .file _ _ _ _ ssz => ssz
  | .dir _ _ _ _ _ ssz _ => ssz

/-- The `children` list; `[]` for files (whose Python `children` is `None`,
the file/dir discriminator, so a file genuinely has no children). -/
def Entry.childrenOf : Entry → List Entry
  | .file _ _ _ _ _ => []
  | .dir _ _ _ _ _ _ cs => cs

/-- True on the `dir` constructor (Python: `children is not None`). -/
def Entry.isDir : Entry → Bool
  | .file _ _ _ _ _ => false
  | .dir _ _ _ _ _ _ _ => true

/-- `Entry.append` from the source: appends `child` to `self.children`;
a file child adds its size to both `self.size` and `self.full_size`,
a directory child adds only its (current) `full_size` to `self.full_size`.
On a file, Python's `self.children.append` would raise `AttributeError`;
the builder only ever appends to directories (its path index holds only
directories), so that branch leaves the entry unchanged here. -/
def Entry.append (e child : Entry) : Entry :=
  match e with
  | .file pd nm sz sel ssz => .file pd nm sz sel ssz
  | .dir pd nm sz fs sel ssz cs =>
      match child with
      | .file _ _ csz _ _ => .dir pd nm (sz + csz) (fs + csz) sel ssz (cs ++ [child])
      | .dir _ _ _ cfs _ _ _ => .dir pd nm sz (fs + cfs) sel ssz (cs ++ [child])

/-- Sum of the `full_size` fields of the directory elements of a list
(the quantity `update_sizes` adds to a parent, one child at a time). -/
def dirFullSum : List Entry → Nat
  | [] => 0
  | .file _ _ _ _ _ :: cs => dirFullSum cs
  | .dir _ _ _ fs _ _ _ :: cs => fs + dirFullSum cs

mutual
/-- `update_sizes` from the source: recursively update every directory
child, then add each directory child's (now final) `full_size` to this
entry's `full_size`.  Files are left untouched. -/
def update_sizes : Entry → Entry
  | .file pd nm sz sel ssz => .file pd nm sz sel ssz
  | .dir pd nm sz fs sel ssz cs =>
      let cs' := updateL cs
      .dir pd nm sz (fs + dirFullSum cs') sel ssz cs'

/-- The loop body of `update_sizes` over a children list. -/
def updateL : List Entry → List Entry
  | [] => []
  | .file pd nm sz sel ssz :: cs => .file pd nm sz sel ssz :: updateL cs
  | .dir pd nm sz fs sel ssz gs :: cs =>
      update_sizes (.dir pd nm sz fs sel ssz gs) :: updateL cs
end

mutual
/-- Generic induction over `Entry` (nested inductive), node part. -/
def Entry.indN {P : Entry → Prop} {Q : List Entry → Prop}
    (hfile : ∀ pd nm sz sel ssz, P (.file pd nm sz sel ssz))
    (hdir : ∀ pd nm sz fs sel ssz cs, Q cs → P (.dir pd nm sz fs sel ssz cs))
    (hnil : Q [])
    (hcons : ∀ c cs, P c → Q cs → Q (c :: cs)) : ∀ t, P t
  | .file pd nm sz sel ssz => hfile pd nm sz sel ssz
  | .dir pd nm sz fs sel ssz cs =>
      hdir pd nm sz fs sel ssz cs (Entry.indL hfile hdir hnil hcons cs)

/-- Generic induction over `Entry` (nested inductive), list part. -/
def Entry.indL {P : Entry → Prop} {Q : List Entry → Prop}
    (hfile : ∀ pd nm sz sel ssz, P (.file pd nm sz sel ssz))
    (hdir : ∀ pd nm sz fs sel ssz cs, Q cs → P (.dir pd nm sz fs sel ssz cs))
    (hnil : Q [])
    (hcons : ∀ c cs, P c → Q cs → Q (c :: cs)) : ∀ cs, Q cs
  | [] => hnil
  | c :: cs =>
      hcons c cs (Entry.indN hfile hdir hnil hcons c) (Entry.indL hfile hdir hnil hcons cs)
end

/-! ### The scan stream and the tree builder (`find_files`) -/

/-- One `os.fwalk` tuple `(parent_dir, dirs, files, parent_dir_fd)`:
the parent path (segments relative to the scan root), the subdirectory
names, and the file names paired with their `os.stat` outcome
(`none` models `FileNotFoundError`, e.g. a dangling symlink). -/
structure FwalkRec where
  parent : List String
  dirs : List String
  files : List (String × Option Nat)

mutual
/-- Navigate to the entry at path `p` and rewrite it with `f`
(`entries[path]` in Python; only directories are dict keys, so
navigation descends only through directory children).  `none` models
the `KeyError` on a missing path. -/
def updateAt : Entry → List String → (Entry → Entry) → Option Entry
  | e, [], f => some (f e)
  | .file _ _ _ _ _, _ :: _, _ => none
  | .dir pd nm sz fs sel ssz cs, n :: p, f =>
      (updateAtL cs n p f).map (.dir pd nm sz fs sel ssz ·)

/-- Find the first directory child named `n` and continue the rewrite. -/
def updateAtL : List Entry → String → List String → (Entry → Entry) → Option (List Entry)
  | [], _, _, _ => none
  | .file pd nm sz sel ssz :: cs, n, p, f =>
      (updateAtL cs n p f).map (Entry.file pd nm sz sel ssz :: ·)
  | .dir pd nm sz fs sel ssz gs :: cs, n, p, f =>
      if nm = n then (updateAt (.dir pd nm sz fs sel ssz gs) p f).map (· :: cs)
      else (updateAtL cs n p f).map (Entry.dir pd nm sz fs sel ssz gs :: ·)
end

mutual
/-- Navigate to the entry at path `p` (read-only `entries[path]`). -/
def getAt : Entry → List String → Option Entry
  | e, [] => some e
  | .file _ _ _ _ _, _ :: _ => none
  | .dir _ _ _ _ _ _ cs, n :: p => getAtL cs n p

/-- Find the first directory child named `n` and continue the lookup. -/
def getAtL : List Entry → String → List String → Option Entry
  | [], _, _ => none
  | .file _ _ _ _ _ :: cs, n, p => getAtL cs n p
  | .dir pd nm sz fs sel ssz gs :: cs, n, p =>
      if nm = n then getAt (.dir pd nm sz fs sel ssz gs) p else getAtL cs n p
end

/-- A freshly discovered directory: `Entry(parent_dir, dir, 0, 0, [])`
(with `selected = False`, `selected_size = 0` from `Entry.__init__`). -/
def mkDirEntry (parent : List String) (d : String) : Entry :=
  .dir parent d 0 0 (some false) 0 []

/-- A freshly discovered file: `Entry(parent_dir, file, file_size, None,
None)` where `file_size` is the stat result, or `0` on
`FileNotFoundError` (dangling symlink / vanished entry). -/
def mkFileEntry (parent : List String) (f : String) (st : Option Nat) : Entry :=
  .file parent f (st.getD 0) (some false) 0

/-- The body of the `os.fwalk` loop for one record: append an entry for
every subdirectory, then one for every file, to the parent entry. -/
def appendRec (pe : Entry) (r : FwalkRec) : Entry :=
  (r.files.map (fun fr => mkFileEntry r.parent fr.1 fr.2)).foldl Entry.append
    ((r.dirs.map (mkDirEntry r.parent)).foldl Entry.append pe)

/-- Process one `os.fwalk` record: look up the parent in the index and
append the newly discovered children (`none` = `KeyError`). -/
def processRecord (t : Entry) (r : FwalkRec) : Option Entry :=
  updateAt t r.parent (fun pe => appendRec pe r)

/-- Fold the whole scan stream through `processRecord`. -/
def build : Entry → List FwalkRec → Option Entry
  | t, [] => some t
  | t, r :: rs =>
      match processRecord t r with
      | none => none
      | some t' => build t' rs

/-- `find_files` from the source: seed the index with the root entry
`Entry(start, basename(start), 0, 0, [])`, consume the scan stream,
then run the deferred `update_sizes` pass over the root. -/
def find_files (rootName : String) (recs : List FwalkRec) : Option Entry :=
  (build (.dir [] rootName 0 0 (some false) 0 []) recs).map update_sizes

/-! ### Size bookkeeping predicates (spec §3 invariants, claims C2/C5) -/

/-- Sum of the sizes of the immediate *file* elements of a list. -/
def fileChildSum : List Entry → Nat
  | [] => 0
  | .file _ _ s _ _ :: cs => s + fileChildSum cs
  | .dir _ _ _ _ _ _ _ :: cs => fileChildSum cs

mutual
/-- Total size of all file descendants of an entry (a file counts
itself; a directory sums over its subtree's files, transitively). -/
def fileDescSum : Entry → Nat
  | .file _ _ s _ _ => s
  | .dir _ _ _ _ _ _ cs => fileDescSumL cs

/-- `fileDescSum` summed over a list of entries. -/
def fileDescSumL : List Entry → Nat
  | [] => 0
  | c :: cs => fileDescSum c + fileDescSumL cs
end

/-- Sum, over the *directory* elements of a list, of their subtrees'
file-descendant totals. -/
def dirDescSum : List Entry → Nat
  | [] => 0
  | .file _ _ _ _ _ :: cs => dirDescSum cs
  | .dir _ _ _ _ _ _ gs :: cs => fileDescSumL gs + dirDescSum cs

mutual
/-- Invariant after the streaming phase of the builder, before
`update_sizes`: every directory has `size = Σ immediate file children`
and `full_size = size` (directory children were appended while their
own `full_size` was still `0`). -/
def phase1Inv : Entry → Bool
  | .file _ _ _ _ _ => true
  | .dir _ _ sz fs _ _ cs => (sz == fileChildSum cs) && (fs == sz) && phase1L cs

/-- `phase1Inv` over a list of entries. -/
def phase1L : List Entry → Bool
  | [] => true
  | c :: cs => phase1Inv c && phase1L cs
end

mutual
/-- Claim C5's invariant: every directory's own `size` equals the sum
of the sizes of its immediate file children. -/
def ownSizesOk : Entry → Bool
  | .file _ _ _ _ _ => true
  | .dir _ _ sz _ _ _ cs => (sz == fileChildSum cs) && ownSizesOkL cs

/-- `ownSizesOk` over a list of entries. -/
def ownSizesOkL : List Entry → Bool
  | [] => true
  | c :: cs => ownSizesOk c && ownSizesOkL cs
end

mutual
/-- Claim C2's invariant: every directory's `full_size` equals the sum
of the sizes of all its file descendants, transitively. -/
def fullSizesOk : Entry → Bool
  | .file _ _ _ _ _ => true
  | .dir _ _ _ fs _ _ cs => (fs == fileDescSumL cs) && fullSizesOkL cs

/-- `fullSizesOk` over a list of entries. -/
def fullSizesOkL : List Entry → Bool
  | [] => true
  | c :: cs => fullSizesOk c && fullSizesOkL cs
end

theorem fileChildSum_append (xs ys : List Entry) :
    fileChildSum (xs ++ ys) = fileChildSum xs + fileChildSum ys := by
  induction xs with
  | nil => simp [fileChildSum]
  | cons c cs ih =>
      cases c with
      | file pd nm sz sel ssz => simp [fileChildSum, ih]; omega
      | dir pd nm sz fs sel ssz gs => simp [fileChildSum, ih]

theorem phase1L_append (xs ys : List Entry) :
    phase1L (xs ++ ys) = (phase1L xs && phase1L ys) := by
  induction xs with
  | nil => simp [phase1L]
  | cons c cs ih => simp [phase1L, ih, Bool.and_assoc]

theorem fileDescSumL_split (cs : List Entry) :
    fileDescSumL cs = fileChildSum cs + dirDescSum cs := by
  induction cs with
  | nil => simp [fileDescSumL, fileChildSum, dirDescSum]
  | cons c cs ih =>
      cases c with
      | file pd nm sz sel ssz =>
          simp only [fileDescSumL, fileChildSum, dirDescSum, fileDescSum, ih]; omega
      | dir pd nm sz fs sel ssz gs =>
          simp only [fileDescSumL, fileChildSum, dirDescSum, fileDescSum, ih]; omega

/-- The `full_size` field of a directory (`0` for a file, whose Python
`full_size` is `None`). -/
def Entry.fullSizeOf : Entry → Nat
  | .file _ _ _ _ _ => 0
  | .dir _ _ _ fs _ _ _ => fs

theorem isDir_append (e c : Entry) : (e.append c).isDir = e.isDir := by
  cases e <;> cases c <;> rfl

theorem isDir_foldl_append (l : List Entry) :
    ∀ pe : Entry, (l.foldl Entry.append pe).isDir = pe.isDir := by
  induction l with
  | nil => intro pe; rfl
  | cons c cs ih => intro pe; simp only [List.foldl_cons, ih, isDir_append]

theorem isDir_appendRec (pe : Entry) (r : FwalkRec) :
    (appendRec pe r).isDir = pe.isDir := by
  simp only [appendRec, isDir_foldl_append]

theorem phase1_append_file (pe : Entry) (par : List String) (f : String) (st : Option Nat)
    (h : phase1Inv pe = true) : phase1Inv (pe.append (mkFileEntry par f st)) = true := by
  cases pe with
  | file pd nm sz sel ssz => simpa [Entry.append, mkFileEntry] using h
  | dir pd nm sz fs sel ssz cs =>
      simpa [phase1Inv, Entry.append, mkFileEntry, fileChildSum_append, phase1L_append,
        fileChildSum, phase1L] using h

theorem phase1_append_dir (pe : Entry) (par : List String) (d : String)
    (h : phase1Inv pe = true) : phase1Inv (pe.append (mkDirEntry par d)) = true := by
  cases pe with
  | file pd nm sz sel ssz => simpa [Entry.append, mkDirEntry] using h
  | dir pd nm sz fs sel ssz cs =>
      simpa [phase1Inv, Entry.append, mkDirEntry, fileChildSum_append, phase1L_append,
        fileChildSum, phase1L] using h

theorem phase1_foldl_dirs (par : List String) (ds : List String) :
    ∀ pe : Entry, phase1Inv pe = true →
      phase1Inv ((ds.map (mkDirEntry par)).foldl Entry.append pe) = true := by
  induction ds with
  | nil => intro pe h; simpa using h
  | cons d ds ih =>
      intro pe h
      simp only [List.map_cons, List.foldl_cons]
      exact ih _ (phase1_append_dir pe par d h)

theorem phase1_foldl_files (par : List String) (l : List (String × Option Nat)) :
    ∀ pe : Entry, phase1Inv pe = true →
      phase1Inv ((l.map (fun fr => mkFileEntry par fr.1 fr.2)).foldl Entry.append pe) = true := by
  induction l with
  | nil => intro pe h; simpa using h
  | cons fr l ih =>
      intro pe h
      simp only [List.map_cons, List.foldl_cons]
      exact ih _ (phase1_append_file pe par fr.1 fr.2 h)

theorem phase1_appendRec (pe : Entry) (r : FwalkRec) (h : phase1Inv pe = true) :
    phase1Inv (appendRec pe r) = true := by
  exact phase1_foldl_files r.parent r.files _ (phase1_foldl_dirs r.parent r.dirs pe h)

theorem updateAt_phase1 (f : Entry → Entry)
    (hf : ∀ e, phase1Inv e = true → phase1Inv (f e) = true)
    (hd : ∀ e, (f e).isDir = e.isDir) :
    ∀ t, ∀ p t', phase1Inv t = true → updateAt t p f = some t' → phase1Inv t' = true := by
  refine Entry.indN
    (P := fun t => ∀ p t', phase1Inv t = true → updateAt t p f = some t' →
      phase1Inv t' = true)
    (Q := fun cs => ∀ n p cs', phase1L cs = true → updateAtL cs n p f = some cs' →
      phase1L cs' = true ∧ fileChildSum cs' = fileChildSum cs)
    ?_ ?_ ?_ ?_
  · intro pd nm sz sel ssz p t' h heq
    cases p with
    | nil =>
        simp only [updateAt, Option.some_inj] at heq
        exact heq ▸ hf _ h
    | cons n p => simp [updateAt] at heq
  · intro pd nm sz fs sel ssz cs ihQ p t' h heq
    cases p with
    | nil =>
        simp only [updateAt, Option.some_inj] at heq
        exact heq ▸ hf _ h
    | cons n p =>
        simp only [updateAt, Option.map_eq_some'] at heq
        obtain ⟨cs', hcs', rfl⟩ := heq
        simp only [phase1Inv, Bool.and_eq_true, beq_iff_eq] at h ⊢
        obtain ⟨⟨hsz, hfs⟩, hl⟩ := h
        obtain ⟨hl', hsum⟩ := ihQ n p cs' hl hcs'
        exact ⟨⟨by omega, hfs⟩, hl'⟩
  · intro n p cs' h heq
    simp [updateAtL] at heq
  · intro c cs ihP ihQ n p cs' h heq
    simp only [phase1L, Bool.and_eq_true] at h
    obtain ⟨hc, hcs⟩ := h
    cases c with
    | file pd nm sz sel ssz =>
        simp only [updateAtL, Option.map_eq_some'] at heq
        obtain ⟨cs₀, hcs₀, rfl⟩ := heq
        obtain ⟨h1, h2⟩ := ihQ n p cs₀ hcs hcs₀
        refine ⟨by simp [phase1L, h1, hc], by simp [fileChildSum, h2]⟩
    | dir pd nm sz fs sel ssz gs =>
        by_cases hnm : nm = n
        · subst hnm
          simp only [updateAtL, if_pos rfl] at heq
          cases hu : updateAt (Entry.dir pd nm sz fs sel ssz gs) p f with
          | none => rw [hu] at heq; simp at heq
          | some c' =>
              rw [hu] at heq
              simp only [if_true, Option.map_some', Option.some_inj] at heq
              subst heq
              have hp1 : phase1Inv c' = true := ihP p c' hc hu
              have hdir' : c'.isDir = true := by
                cases p with
                | nil =>
                    simp only [updateAt, Option.some_inj] at hu
                    rw [← hu, hd]; rfl
                | cons m p' =>
                    simp only [updateAt, Option.map_eq_some'] at hu
                    obtain ⟨gs', _, rfl⟩ := hu
                    rfl
              cases c' with
              | file _ _ _ _ _ => simp [Entry.isDir] at hdir'
              | dir _ _ _ _ _ _ _ =>
                  exact ⟨by simp [phase1L, hp1, hcs], by simp [fileChildSum]⟩
        · simp only [updateAtL, hnm, if_false, Option.map_eq_some'] at heq
          obtain ⟨cs₀, hcs₀, rfl⟩ := heq
          obtain ⟨h1, h2⟩ := ihQ n p cs₀ hcs hcs₀
          refine ⟨by simp [phase1L, h1, hc], by simp [fileChildSum, h2]⟩

theorem processRecord_phase1 (t : Entry) (r : FwalkRec) (t' : Entry)
    (h : phase1Inv t = true) (heq : processRecord t r = some t') : phase1Inv t' = true := by
  exact updateAt_phase1 (fun pe => appendRec pe r)
    (fun e he => phase1_appendRec e r he) (fun e => isDir_appendRec e r) t r.parent t' h heq

theorem build_phase1 (recs : List FwalkRec) :
    ∀ t t', phase1Inv t = true → build t recs = some t' → phase1Inv t' = true := by
  induction recs with
  | nil =>
      intro t t' h heq
      simp only [build, Option.some_inj] at heq
      exact heq ▸ h
  | cons r rs ih =>
      intro t t' h heq
      simp only [build] at heq
      cases hpr : processRecord t r with
      | none => rw [hpr] at heq; cases heq
      | some t₀ =>
          rw [hpr] at heq
          exact ih t₀ t' (processRecord_phase1 t r t₀ h hpr) heq

theorem update_sizes_ok :
    ∀ t, phase1Inv t = true →
      ownSizesOk (update_sizes t) = true ∧ fullSizesOk (update_sizes t) = true ∧
      fileDescSum (update_sizes t) = fileDescSum t ∧
      (t.isDir = true → (update_sizes t).fullSizeOf = fileDescSum t) := by
  refine Entry.indN
    (P := fun t => phase1Inv t = true →
      ownSizesOk (update_sizes t) = true ∧ fullSizesOk (update_sizes t) = true ∧
      fileDescSum (update_sizes t) = fileDescSum t ∧
      (t.isDir = true → (update_sizes t).fullSizeOf = fileDescSum t))
    (Q := fun cs => phase1L cs = true →
      ownSizesOkL (updateL cs) = true ∧ fullSizesOkL (updateL cs) = true ∧
      fileChildSum (updateL cs) = fileChildSum cs ∧
      dirFullSum (updateL cs) = dirDescSum cs ∧
      fileDescSumL (updateL cs) = fileDescSumL cs)
    ?_ ?_ ?_ ?_
  · intro pd nm sz sel ssz _
    simp [update_sizes, ownSizesOk, fullSizesOk, fileDescSum, Entry.isDir]
  · intro pd nm sz fs sel ssz cs ihQ h
    simp only [phase1Inv, Bool.and_eq_true, beq_iff_eq] at h
    obtain ⟨⟨hsz, hfs⟩, hl⟩ := h
    obtain ⟨q1, q2, q3, q4, q5⟩ := ihQ hl
    have hsplit := fileDescSumL_split cs
    refine ⟨?_, ?_, ?_, ?_⟩
    · simp only [update_sizes, ownSizesOk, Bool.and_eq_true, beq_iff_eq]
      exact ⟨by omega, q1⟩
    · simp only [update_sizes, fullSizesOk, Bool.and_eq_true, beq_iff_eq]
      exact ⟨by omega, q2⟩
    · simp only [update_sizes, fileDescSum]
      omega
    · intro _
      simp only [update_sizes, Entry.fullSizeOf, fileDescSum]
      omega
  · intro _
    simp [updateL, ownSizesOkL, fullSizesOkL, fileChildSum, dirFullSum, fileDescSumL, dirDescSum]
  · intro c cs ihP ihQ h
    simp only [phase1L, Bool.and_eq_true] at h
    obtain ⟨hc, hcs⟩ := h
    obtain ⟨q1, q2, q3, q4, q5⟩ := ihQ hcs
    cases c with
    | file pd nm sz sel ssz =>
        refine ⟨?_, ?_, ?_, ?_, ?_⟩ <;>
          simp [updateL, ownSizesOkL, fullSizesOkL, ownSizesOk, fullSizesOk, fileChildSum,
            dirFullSum, fileDescSumL, dirDescSum, fileDescSum, q1, q2, q3, q4, q5]
    | dir pd nm sz fs sel ssz gs =>
        obtain ⟨p1, p2, p3, p4⟩ := ihP hc
        have p4' := p4 rfl
        simp only [update_sizes, Entry.fullSizeOf, fileDescSum] at p4'
        refine ⟨?_, ?_, ?_, ?_, ?_⟩
        · simp only [updateL, ownSizesOkL, Bool.and_eq_true]
          exact ⟨p1, q1⟩
        · simp only [updateL, fullSizesOkL, Bool.and_eq_true]
          exact ⟨p2, q2⟩
        · simp only [updateL, update_sizes, fileChildSum]
          exact q3
        · simp only [updateL, update_sizes, dirFullSum, dirDescSum]
          omega
        · simp only [updateL, fileDescSumL]
          rw [p3, q5]

/-- Claim C2: for every scan stream accepted by the builder, every
directory's `full_size` equals the sum of the sizes of all its file
descendants, transitively (any discovery order the scanner produces). -/
theorem find_files_full_sizes (rootName : String) (recs : List FwalkRec) (t : Entry)
    (h : find_files rootName recs = some t) : fullSizesOk t = true := by
  simp only [find_files, Option.map_eq_some'] at h
  obtain ⟨t₀, hb, rfl⟩ := h
  have hroot : phase1Inv (Entry.dir [] rootName 0 0 (some false) 0 []) = true := by
    simp [phase1Inv, fileChildSum, phase1L]
  exact (update_sizes_ok t₀ (build_phase1 recs _ t₀ hroot hb)).2.1

/-- Claim C5: in every tree the builder returns, each directory's own
`size` is the sum of its immediate file children's sizes; appending a
file child adds the child's size to the parent's own `size`, while
appending a directory child leaves the parent's own `size` unchanged. -/
theorem find_files_own_sizes :
    (∀ rootName recs t, find_files rootName recs = some t → ownSizesOk t = true) ∧
    (∀ pd nm sz fs sel ssz cs pd2 nm2 csz sel2 ssz2,
      ((Entry.dir pd nm sz fs sel ssz cs).append
        (.file pd2 nm2 csz sel2 ssz2)).sizeOf' = sz + csz) ∧
    (∀ pd nm sz fs sel ssz cs c, c.isDir = true →
      ((Entry.dir pd nm sz fs sel ssz cs).append c).sizeOf' = sz) := by
  refine ⟨?_, ?_, ?_⟩
  · intro rootName recs t h
    simp only [find_files, Option.map_eq_some'] at h
    obtain ⟨t₀, hb, rfl⟩ := h
    have hroot : phase1Inv (Entry.dir [] rootName 0 0 (some false) 0 []) = true := by
      simp [phase1Inv, fileChildSum, phase1L]
    exact (update_sizes_ok t₀ (build_phase1 recs _ t₀ hroot hb)).1
  · intro pd nm sz fs sel ssz cs pd2 nm2 csz sel2 ssz2
    rfl
  · intro pd nm sz fs sel ssz cs c hdir
    cases c with
    | file _ _ _ _ _ => simp [Entry.isDir] at hdir
    | dir _ _ _ _ _ _ _ => rfl

/-- A small concrete scan stream used by witnesses: a root holding a
file `10k` and a directory `dir1` with a normal file `20k` and a
vanished entry `gone` whose stat failed. -/
def recsFix : List FwalkRec :=
  [⟨[], ["dir1"], [("10k", some 10240)]⟩,
   ⟨["dir1"], [], [("20k", some 20480), ("gone", none)]⟩]

/-- The tree `find_files` builds from `recsFix`. -/
def treeFix : Entry :=
  .dir [] "root" 10240 30720 (some false) 0
    [.dir [] "dir1" 20480 20480 (some false) 0
      [.file ["dir1"] "20k" 20480 (some false) 0,
       .file ["dir1"] "gone" 0 (some false) 0],
     .file [] "10k" 10240 (some false) 0]

theorem find_files_fix : find_files "root" recsFix = some treeFix := by
  simp [find_files, recsFix, treeFix, build, processRecord, updateAt, updateAtL,
    appendRec, mkDirEntry, mkFileEntry, Entry.append, update_sizes, updateL, dirFullSum]

/-! ### Claim C6: vanished entries are kept with size 0 -/

/-- Rewrite functions used by the builder only append children to a
directory (keeping its identity fields) and leave files untouched. -/
def AppendShape (f : Entry → Entry) : Prop :=
  (∀ pd nm sz sel ssz, f (.file pd nm sz sel ssz) = .file pd nm sz sel ssz) ∧
  (∀ pd nm sz fs sel ssz cs, ∃ sz2 fs2 ext,
     f (.dir pd nm sz fs sel ssz cs) = .dir pd nm sz2 fs2 sel ssz (cs ++ ext))

theorem foldl_append_file (l : List Entry) (pd : List String) (nm : String) (sz : Nat)
    (sel : Option Bool) (ssz : Nat) :
    l.foldl Entry.append (Entry.file pd nm sz sel ssz) = .file pd nm sz sel ssz := by
  induction l with
  | nil => rfl
  | cons c cs ih => simpa [Entry.append] using ih

theorem foldl_append_dir (l : List Entry) :
    ∀ pd nm sz fs sel ssz cs, ∃ sz2 fs2,
      l.foldl Entry.append (Entry.dir pd nm sz fs sel ssz cs) =
        .dir pd nm sz2 fs2 sel ssz (cs ++ l) := by
  induction l with
  | nil => intro pd nm sz fs sel ssz cs; exact ⟨sz, fs, by simp⟩
  | cons c cs ih =>
      intro pd nm sz fs sel ssz cs0
      cases c with
      | file pd2 nm2 csz sel2 ssz2 =>
          obtain ⟨sz2, fs2, h⟩ := ih pd nm (sz + csz) (fs + csz) sel ssz
            (cs0 ++ [Entry.file pd2 nm2 csz sel2 ssz2])
          exact ⟨sz2, fs2, by simpa [Entry.append] using h⟩
      | dir pd2 nm2 sz2 cfs sel2 ssz2 gs2 =>
          obtain ⟨sz3, fs3, h⟩ := ih pd nm sz (fs + cfs) sel ssz
            (cs0 ++ [Entry.dir pd2 nm2 sz2 cfs sel2 ssz2 gs2])
          exact ⟨sz3, fs3, by simpa [Entry.append] using h⟩

theorem appendRec_shape (r : FwalkRec) : AppendShape (fun pe => appendRec pe r) := by
  constructor
  · intro pd nm sz sel ssz
    simp [appendRec, foldl_append_file]
  · intro pd nm sz fs sel ssz cs
    obtain ⟨sz2, fs2, h1⟩ := foldl_append_dir (r.dirs.map (mkDirEntry r.parent))
      pd nm sz fs sel ssz cs
    obtain ⟨sz3, fs3, h2⟩ := foldl_append_dir
      (r.files.map (fun fr => mkFileEntry r.parent fr.1 fr.2)) pd nm sz2 fs2 sel ssz
      (cs ++ r.dirs.map (mkDirEntry r.parent))
    refine ⟨sz3, fs3,
      r.dirs.map (mkDirEntry r.parent) ++
        r.files.map (fun fr => mkFileEntry r.parent fr.1 fr.2), ?_⟩
    simp only [appendRec, h1, h2, List.append_assoc]

theorem getAtL_append_right (ext : List Entry) :
    ∀ cs m p pe, getAtL cs m p = some pe → getAtL (cs ++ ext) m p = some pe := by
  intro cs
  induction cs with
  | nil => intro m p pe h; simp [getAtL] at h
  | cons c cs ih =>
      intro m p pe h
      cases c with
      | file _ _ _ _ _ =>
          simp only [getAtL] at h
          simpa [getAtL] using ih m p pe h
      | dir pd nm sz fs sel ssz gs =>
          by_cases hnm : nm = m
          · subst hnm
            simp only [getAtL, if_pos rfl] at h ⊢
            exact h
          · simp only [getAtL, if_neg hnm] at h ⊢
            exact ih m p pe h

theorem build_append (xs ys : List FwalkRec) :
    ∀ t, build t (xs ++ ys) =
      match build t xs with
      | none => none
      | some u => build u ys := by
  induction xs with
  | nil => intro t; simp [build]
  | cons r rs ih =>
      intro t
      simp only [List.cons_append, build]
      cases processRecord t r with
      | none => rfl
      | some t' => exact ih t'

/-- A given child is present in the entry found at path `p`. -/
def FileMem (t : Entry) (p : List String) (c : Entry) : Prop :=
  ∃ pe, getAt t p = some pe ∧ c ∈ pe.childrenOf

/-- `FileMem` relative to a children list and a first path segment. -/
def FileMemL (cs : List Entry) (m : String) (p : List String) (c : Entry) : Prop :=
  ∃ pe, getAtL cs m p = some pe ∧ c ∈ pe.childrenOf

theorem appendShape_isDir {f : Entry → Entry} (hs : AppendShape f) :
    ∀ e, (f e).isDir = e.isDir := by
  intro e
  cases e with
  | file pd nm sz sel ssz => rw [hs.1]
  | dir pd nm sz fs sel ssz cs =>
      obtain ⟨sz2, fs2, ext, h⟩ := hs.2 pd nm sz fs sel ssz cs
      rw [h]; rfl

theorem updateAt_fileMem (f : Entry → Entry) (hs : AppendShape f) :
    ∀ t, ∀ q t', updateAt t q f = some t' →
      ∀ p c, c.isDir = false → FileMem t p c → FileMem t' p c := by
  refine Entry.indN
    (P := fun t => ∀ q t', updateAt t q f = some t' →
      ∀ p c, c.isDir = false → FileMem t p c → FileMem t' p c)
    (Q := fun cs => ∀ n q cs', updateAtL cs n q f = some cs' →
      (∀ c, c.isDir = false → c ∈ cs → c ∈ cs') ∧
      (∀ m p c, c.isDir = false → FileMemL cs m p c → FileMemL cs' m p c))
    ?_ ?_ ?_ ?_
  · intro pd nm sz sel ssz q t' hu p c hcd hm
    cases q with
    | nil =>
        simp only [updateAt, Option.some_inj] at hu
        rw [← hu, hs.1]
        exact hm
    | cons n q' => simp [updateAt] at hu
  · intro pd nm sz fs sel ssz cs ihQ q t' hu p c hcd hm
    cases q with
    | nil =>
        simp only [updateAt, Option.some_inj] at hu
        obtain ⟨sz2, fs2, ext, hfd⟩ := hs.2 pd nm sz fs sel ssz cs
        rw [← hu, hfd]
        cases p with
        | nil =>
            obtain ⟨pe, hpe, hmem⟩ := hm
            simp only [getAt, Option.some_inj] at hpe
            rw [← hpe] at hmem
            simp only [Entry.childrenOf] at hmem
            refine ⟨_, rfl, ?_⟩
            simp only [Entry.childrenOf]
            exact List.mem_append_left ext hmem
        | cons m p' =>
            obtain ⟨pe, hpe, hmem⟩ := hm
            simp only [getAt] at hpe
            exact ⟨pe, by simpa [getAt] using getAtL_append_right ext cs m p' pe hpe, hmem⟩
    | cons n q' =>
        simp only [updateAt] at hu
        cases hL : updateAtL cs n q' f with
        | none => rw [hL] at hu; simp at hu
        | some cs' =>
            rw [hL] at hu
            simp only [Option.map_some', Option.some_inj] at hu
            obtain ⟨w1, w2⟩ := ihQ n q' cs' hL
            rw [← hu]
            cases p with
            | nil =>
                obtain ⟨pe, hpe, hmem⟩ := hm
                simp only [getAt, Option.some_inj] at hpe
                rw [← hpe] at hmem
                simp only [Entry.childrenOf] at hmem
                refine ⟨_, rfl, ?_⟩
                simp only [Entry.childrenOf]
                exact w1 c hcd hmem
            | cons m p' =>
                obtain ⟨pe, hpe, hmem⟩ := hm
                simp only [getAt] at hpe
                obtain ⟨pe', hpe', hmem'⟩ := w2 m p' c hcd ⟨pe, hpe, hmem⟩
                exact ⟨pe', by simpa [getAt] using hpe', hmem'⟩
  · intro n q cs' hu
    simp [updateAtL] at hu
  · intro c0 cs ihP ihQ n q cs' hu
    cases c0 with
    | file pd nm sz sel ssz =>
        simp only [updateAtL] at hu
        cases hL : updateAtL cs n q f with
        | none => rw [hL] at hu; simp at hu
        | some cs0 =>
            rw [hL] at hu
            simp only [Option.map_some', Option.some_inj] at hu
            obtain ⟨w1, w2⟩ := ihQ n q cs0 hL
            rw [← hu]
            constructor
            · intro c hcd hc
              rcases List.mem_cons.mp hc with hc | hc
              · exact hc ▸ List.mem_cons_self _ _
              · exact List.mem_cons_of_mem _ (w1 c hcd hc)
            · intro m p c hcd hmL
              obtain ⟨pe, hpe, hmem⟩ := hmL
              simp only [getAtL] at hpe
              obtain ⟨pe', hpe', hmem'⟩ := w2 m p c hcd ⟨pe, hpe, hmem⟩
              exact ⟨pe', by simpa [getAtL] using hpe', hmem'⟩
    | dir pd nm sz fs sel ssz gs =>
        by_cases hnm : nm = n
        · subst hnm
          simp only [updateAtL, if_pos rfl] at hu
          cases hc1 : updateAt (Entry.dir pd nm sz fs sel ssz gs) q f with
          | none => rw [hc1] at hu; simp at hu
          | some c1 =>
              rw [hc1] at hu
              simp only [if_true, Option.map_some', Option.some_inj] at hu
              have hshape : ∃ sz2 fs2 gs2, c1 = .dir pd nm sz2 fs2 sel ssz gs2 := by
                cases q with
                | nil =>
                    simp only [updateAt, Option.some_inj] at hc1
                    obtain ⟨sz2, fs2, ext, hfd⟩ := hs.2 pd nm sz fs sel ssz gs
                    exact ⟨sz2, fs2, gs ++ ext, by rw [← hc1, hfd]⟩
                | cons m2 q2 =>
                    simp only [updateAt] at hc1
                    cases hg : updateAtL gs m2 q2 f with
                    | none => rw [hg] at hc1; simp at hc1
                    | some gs2 =>
                        rw [hg] at hc1
                        simp only [Option.map_some', Option.some_inj] at hc1
                        exact ⟨sz, fs, gs2, hc1.symm⟩
              obtain ⟨sz2, fs2, gs2, rfl⟩ := hshape
              rw [← hu]
              constructor
              · intro c hcd hc
                rcases List.mem_cons.mp hc with hc | hc
                · rw [hc] at hcd; simp [Entry.isDir] at hcd
                · exact List.mem_cons_of_mem _ hc
              · intro m p c hcd hmL
                by_cases hm2 : nm = m
                · subst hm2
                  obtain ⟨pe, hpe, hmem⟩ := hmL
                  simp only [getAtL, if_pos rfl] at hpe
                  obtain ⟨pe', hpe', hmem'⟩ :=
                    ihP q _ hc1 p c hcd ⟨pe, hpe, hmem⟩
                  exact ⟨pe', by simpa [getAtL, if_pos rfl] using hpe', hmem'⟩
                · obtain ⟨pe, hpe, hmem⟩ := hmL
                  simp only [getAtL, if_neg hm2] at hpe
                  exact ⟨pe, by simpa [getAtL, if_neg hm2] using hpe, hmem⟩
        · simp only [updateAtL, if_neg hnm] at hu
          cases hL : updateAtL cs n q f with
          | none => rw [hL] at hu; simp at hu
          | some cs0 =>
              rw [hL] at hu
              simp only [Option.map_some', Option.some_inj] at hu
              obtain ⟨w1, w2⟩ := ihQ n q cs0 hL
              rw [← hu]
              constructor
              · intro c hcd hc
                rcases List.mem_cons.mp hc with hc | hc
                · exact hc ▸ List.mem_cons_self _ _
                · exact List.mem_cons_of_mem _ (w1 c hcd hc)
              · intro m p c hcd hmL
                by_cases hm2 : nm = m
                · subst hm2
                  obtain ⟨pe, hpe, hmem⟩ := hmL
                  simp only [getAtL, if_pos rfl] at hpe
                  exact ⟨pe, by simpa [getAtL, if_pos rfl] using hpe, hmem⟩
                · obtain ⟨pe, hpe, hmem⟩ := hmL
                  simp only [getAtL, if_neg hm2] at hpe
                  obtain ⟨pe', hpe', hmem'⟩ := w2 m p c hcd ⟨pe, hpe, hmem⟩
                  exact ⟨pe', by simpa [getAtL, if_neg hm2] using hpe', hmem'⟩

theorem updateAt_getAt (f : Entry → Entry) (hs : AppendShape f) :
    ∀ t, ∀ q t', updateAt t q f = some t' →
      ∃ pe, getAt t q = some pe ∧ getAt t' q = some (f pe) := by
  refine Entry.indN
    (P := fun t => ∀ q t', updateAt t q f = some t' →
      ∃ pe, getAt t q = some pe ∧ getAt t' q = some (f pe))
    (Q := fun cs => ∀ n q cs', updateAtL cs n q f = some cs' →
      ∃ pe, getAtL cs n q = some pe ∧ getAtL cs' n q = some (f pe))
    ?_ ?_ ?_ ?_
  · intro pd nm sz sel ssz q t' hu
    cases q with
    | nil =>
        simp only [updateAt, Option.some_inj] at hu
        exact ⟨_, rfl, by rw [← hu, hs.1]; rfl⟩
    | cons n q' => simp [updateAt] at hu
  · intro pd nm sz fs sel ssz cs ihQ q t' hu
    cases q with
    | nil =>
        simp only [updateAt, Option.some_inj] at hu
        obtain ⟨sz2, fs2, ext, hfd⟩ := hs.2 pd nm sz fs sel ssz cs
        refine ⟨_, rfl, ?_⟩
        rw [← hu, hfd]
        rfl
    | cons n q' =>
        simp only [updateAt] at hu
        cases hL : updateAtL cs n q' f with
        | none => rw [hL] at hu; simp at hu
        | some cs' =>
            rw [hL] at hu
            simp only [Option.map_some', Option.some_inj] at hu
            obtain ⟨pe, h1, h2⟩ := ihQ n q' cs' hL
            exact ⟨pe, by simpa [getAt] using h1, by rw [← hu]; simpa [getAt] using h2⟩
  · intro n q cs' hu
    simp [updateAtL] at hu
  · intro c0 cs ihP ihQ n q cs' hu
    cases c0 with
    | file pd nm sz sel ssz =>
        simp only [updateAtL] at hu
        cases hL : updateAtL cs n q f with
        | none => rw [hL] at hu; simp at hu
        | some cs0 =>
            rw [hL] at hu
            simp only [Option.map_some', Option.some_inj] at hu
            obtain ⟨pe, h1, h2⟩ := ihQ n q cs0 hL
            exact ⟨pe, by simpa [getAtL] using h1, by rw [← hu]; simpa [getAtL] using h2⟩
    | dir pd nm sz fs sel ssz gs =>
        by_cases hnm : nm = n
        · subst hnm
          simp only [updateAtL, if_pos rfl] at hu
          cases hc1 : updateAt (Entry.dir pd nm sz fs sel ssz gs) q f with
          | none => rw [hc1] at hu; simp at hu
          | some c1 =>
              rw [hc1] at hu
              simp only [if_true, Option.map_some', Option.some_inj] at hu
              obtain ⟨pe, h1, h2⟩ := ihP q c1 hc1
              have hshape : ∃ sz2 fs2 gs2, c1 = .dir pd nm sz2 fs2 sel ssz gs2 := by
                cases q with
                | nil =>
                    simp only [updateAt, Option.some_inj] at hc1
                    obtain ⟨sz2, fs2, ext, hfd⟩ := hs.2 pd nm sz fs sel ssz gs
                    exact ⟨sz2, fs2, gs ++ ext, by rw [← hc1, hfd]⟩
                | cons m2 q2 =>
                    simp only [updateAt] at hc1
                    cases hg : updateAtL gs m2 q2 f with
                    | none => rw [hg] at hc1; simp at hc1
                    | some gs2 =>
                        rw [hg] at hc1
                        simp only [Option.map_some', Option.some_inj] at hc1
                        exact ⟨sz, fs, gs2, hc1.symm⟩
              obtain ⟨sz2, fs2, gs2, rfl⟩ := hshape
              refine ⟨pe, by simpa [getAtL, if_pos rfl] using h1, ?_⟩
              rw [← hu]
              simpa [getAtL, if_pos rfl] using h2
        · simp only [updateAtL, if_neg hnm] at hu
          cases hL : updateAtL cs n q f with
          | none => rw [hL] at hu; simp at hu
          | some cs0 =>
              rw [hL] at hu
              simp only [Option.map_some', Option.some_inj] at hu
              obtain ⟨pe, h1, h2⟩ := ihQ n q cs0 hL
              refine ⟨pe, by simpa [getAtL, if_neg hnm] using h1, ?_⟩
              rw [← hu]
              simpa [getAtL, if_neg hnm] using h2

theorem getAt_isDir :
    ∀ t, ∀ q pe, q ≠ [] → getAt t q = some pe → pe.isDir = true := by
  refine Entry.indN
    (P := fun t => ∀ q pe, q ≠ [] → getAt t q = some pe → pe.isDir = true)
    (Q := fun cs => ∀ n q pe, getAtL cs n q = some pe → pe.isDir = true)
    ?_ ?_ ?_ ?_
  · intro pd nm sz sel ssz q pe hq h
    cases q with
    | nil => exact absurd rfl hq
    | cons n q' => simp [getAt] at h
  · intro pd nm sz fs sel ssz cs ihQ q pe hq h
    cases q with
    | nil => exact absurd rfl hq
    | cons n q' =>
        simp only [getAt] at h
        exact ihQ n q' pe h
  · intro n q pe h
    simp [getAtL] at h
  · intro c0 cs ihP ihQ n q pe h
    cases c0 with
    | file pd nm sz sel ssz =>
        simp only [getAtL] at h
        exact ihQ n q pe h
    | dir pd nm sz fs sel ssz gs =>
        by_cases hnm : nm = n
        · subst hnm
          simp only [getAtL, if_pos rfl, if_true] at h
          cases q with
          | nil =>
              simp only [getAt, Option.some_inj] at h
              rw [← h]; rfl
          | cons m2 q2 => exact ihP (m2 :: q2) pe (by simp) h
        · simp only [getAtL, if_neg hnm] at h
          exact ihQ n q pe h

theorem updateAt_isDir (f : Entry → Entry) (hd : ∀ e, (f e).isDir = e.isDir)
    (t : Entry) (q : List String) (t' : Entry) (h : updateAt t q f = some t') :
    t'.isDir = t.isDir := by
  cases q with
  | nil =>
      simp only [updateAt, Option.some_inj] at h
      rw [← h, hd]
  | cons n q' =>
      cases t with
      | file _ _ _ _ _ => simp [updateAt] at h
      | dir pd nm sz fs sel ssz cs =>
          simp only [updateAt] at h
          cases hL : updateAtL cs n q' f with
          | none => rw [hL] at h; simp at h
          | some cs' =>
              rw [hL] at h
              simp only [Option.map_some', Option.some_inj] at h
              rw [← h]; rfl

theorem build_isDir (recs : List FwalkRec) :
    ∀ t t', build t recs = some t' → t'.isDir = t.isDir := by
  induction recs with
  | nil =>
      intro t t' h
      simp only [build, Option.some_inj] at h
      rw [← h]
  | cons r rs ih =>
      intro t t' h
      simp only [build] at h
      cases hpr : processRecord t r with
      | none => rw [hpr] at h; cases h
      | some t0 =>
          rw [hpr] at h
          have h1 := updateAt_isDir (fun pe => appendRec pe r)
            (appendShape_isDir (appendRec_shape r)) t r.parent t0 hpr
          rw [ih t0 t' h, h1]

theorem getAt_update_sizes :
    ∀ t, ∀ p, getAt (update_sizes t) p = (getAt t p).map update_sizes := by
  refine Entry.indN
    (P := fun t => ∀ p, getAt (update_sizes t) p = (getAt t p).map update_sizes)
    (Q := fun cs => ∀ m p, getAtL (updateL cs) m p = (getAtL cs m p).map update_sizes)
    ?_ ?_ ?_ ?_
  · intro pd nm sz sel ssz p
    cases p with
    | nil => simp [update_sizes, getAt]
    | cons n p' => simp [update_sizes, getAt]
  · intro pd nm sz fs sel ssz cs ihQ p
    cases p with
    | nil => simp [getAt]
    | cons n p' =>
        simp only [update_sizes, getAt]
        exact ihQ n p'
  · intro m p
    simp [updateL, getAtL]
  · intro c0 cs ihP ihQ m p
    cases c0 with
    | file pd nm sz sel ssz =>
        simp only [updateL, getAtL]
        exact ihQ m p
    | dir pd nm sz fs sel ssz gs =>
        by_cases hnm : nm = m
        · subst hnm
          simp only [updateL, update_sizes, getAtL, if_pos rfl]
          have := ihP p
          simpa [update_sizes] using this
        · simp only [updateL, update_sizes, getAtL, if_neg hnm]
          exact ihQ m p

theorem mem_updateL (c : Entry) (hcd : c.isDir = false) :
    ∀ cs, c ∈ cs → c ∈ updateL cs := by
  intro cs
  induction cs with
  | nil => intro h; simp at h
  | cons c0 cs ih =>
      intro h
      rcases List.mem_cons.mp h with heq | hmem
      · cases c0 with
        | file pd nm sz sel ssz => rw [heq]; simp [updateL]
        | dir pd nm sz fs sel ssz gs => rw [heq] at hcd; simp [Entry.isDir] at hcd
      · cases c0 with
        | file pd nm sz sel ssz =>
            simp only [updateL]; exact List.mem_cons_of_mem _ (ih hmem)
        | dir pd nm sz fs sel ssz gs =>
            simp only [updateL]; exact List.mem_cons_of_mem _ (ih hmem)

theorem appendRec_children (pd : List String) (nm : String) (sz fs : Nat)
    (sel : Option Bool) (ssz : Nat) (cs : List Entry) (r : FwalkRec) :
    ∃ sz2 fs2, appendRec (.dir pd nm sz fs sel ssz cs) r =
      .dir pd nm sz2 fs2 sel ssz
        (cs ++ (r.dirs.map (mkDirEntry r.parent) ++
          r.files.map (fun fr => mkFileEntry r.parent fr.1 fr.2))) := by
  obtain ⟨sz2, fs2, h1⟩ := foldl_append_dir (r.dirs.map (mkDirEntry r.parent))
    pd nm sz fs sel ssz cs
  obtain ⟨sz3, fs3, h2⟩ := foldl_append_dir
    (r.files.map (fun fr => mkFileEntry r.parent fr.1 fr.2)) pd nm sz2 fs2 sel ssz
    (cs ++ r.dirs.map (mkDirEntry r.parent))
  exact ⟨sz3, fs3, by simp only [appendRec, h1, h2, List.append_assoc]⟩

theorem build_fileMem (recs : List FwalkRec) :
    ∀ t t' p c, c.isDir = false → build t recs = some t' →
      FileMem t p c → FileMem t' p c := by
  induction recs with
  | nil =>
      intro t t' p c hcd h hm
      simp only [build, Option.some_inj] at h
      exact h ▸ hm
  | cons r rs ih =>
      intro t t' p c hcd h hm
      simp only [build] at h
      cases hpr : processRecord t r with
      | none => rw [hpr] at h; cases h
      | some t0 =>
          rw [hpr] at h
          exact ih t0 t' p c hcd h
            (updateAt_fileMem _ (appendRec_shape r) t r.parent t0 hpr p c hcd hm)

theorem update_sizes_fileMem (t : Entry) (p : List String) (c : Entry)
    (hcd : c.isDir = false) (hm : FileMem t p c) : FileMem (update_sizes t) p c := by
  obtain ⟨pe, hg, hmem⟩ := hm
  refine ⟨update_sizes pe, ?_, ?_⟩
  · rw [getAt_update_sizes t p, hg]; rfl
  · cases pe with
    | file _ _ _ _ _ => simp [Entry.childrenOf] at hmem
    | dir pd nm sz fs sel ssz cs =>
        simp only [Entry.childrenOf, update_sizes] at hmem ⊢
        exact mem_updateL c hcd cs hmem

/-- Claim C6: a file whose stat failed (`FileNotFoundError`, e.g. a
dangling symlink) is recorded with size 0 and still appears among its
parent directory's children in the final tree; the scan continues. -/
theorem find_files_vanished_entry (rootName : String) (rs1 rs2 : List FwalkRec)
    (r : FwalkRec) (fname : String) (t : Entry)
    (h : find_files rootName (rs1 ++ r :: rs2) = some t)
    (hf : (fname, (none : Option Nat)) ∈ r.files) :
    ∃ pe, getAt t r.parent = some pe ∧
      Entry.file r.parent fname 0 (some false) 0 ∈ pe.childrenOf := by
  simp only [find_files, Option.map_eq_some'] at h
  obtain ⟨t0, hb, rfl⟩ := h
  rw [build_append] at hb
  cases h1 : build (Entry.dir [] rootName 0 0 (some false) 0 []) rs1 with
  | none => rw [h1] at hb; cases hb
  | some t1 =>
      rw [h1] at hb
      simp only [build] at hb
      cases h2 : processRecord t1 r with
      | none => rw [h2] at hb; cases hb
      | some t2 =>
          rw [h2] at hb
          have ht1dir : t1.isDir = true := build_isDir rs1 _ t1 h1
          obtain ⟨pe1, hg1, hg2⟩ := updateAt_getAt _ (appendRec_shape r) t1 r.parent t2 h2
          have hpe1dir : pe1.isDir = true := by
            cases hp : r.parent with
            | nil =>
                rw [hp] at hg1
                simp only [getAt, Option.some_inj] at hg1
                rw [← hg1]; exact ht1dir
            | cons n p' =>
                exact getAt_isDir t1 r.parent pe1 (by rw [hp]; simp) hg1
          have hc : Entry.file r.parent fname 0 (some false) 0 ∈
              (appendRec pe1 r).childrenOf := by
            cases pe1 with
            | file _ _ _ _ _ => simp [Entry.isDir] at hpe1dir
            | dir pd nm sz fs sel ssz cs =>
                obtain ⟨sz2, fs2, hch⟩ := appendRec_children pd nm sz fs sel ssz cs r
                rw [hch]
                simp only [Entry.childrenOf]
                refine List.mem_append_right cs (List.mem_append_right _ ?_)
                have : mkFileEntry r.parent fname none ∈
                    r.files.map (fun fr => mkFileEntry r.parent fr.1 fr.2) :=
                  List.mem_map_of_mem (fun fr => mkFileEntry r.parent fr.1 fr.2) hf
                simpa [mkFileEntry] using this
          have hm2 : FileMem t2 r.parent (Entry.file r.parent fname 0 (some false) 0) :=
            ⟨appendRec pe1 r, hg2, hc⟩
          exact update_sizes_fileMem t0 r.parent _ rfl
            (build_fileMem rs2 t2 t0 r.parent _ rfl hb hm2)

/-! ### Claim C8: unreadable directories are indistinguishable from empty ones -/

theorem updateAt_congr_id (f : Entry → Entry) (hid : ∀ e, f e = e) :
    ∀ t, ∀ p t', updateAt t p f = some t' → t' = t := by
  refine Entry.indN
    (P := fun t => ∀ p t', updateAt t p f = some t' → t' = t)
    (Q := fun cs => ∀ n p cs', updateAtL cs n p f = some cs' → cs' = cs)
    ?_ ?_ ?_ ?_
  · intro pd nm sz sel ssz p t' hu
    cases p with
    | nil =>
        simp only [updateAt, Option.some_inj] at hu
        rw [← hu, hid]
    | cons n p' => simp [updateAt] at hu
  · intro pd nm sz fs sel ssz cs ihQ p t' hu
    cases p with
    | nil =>
        simp only [updateAt, Option.some_inj] at hu
        rw [← hu, hid]
    | cons n p' =>
        simp only [updateAt] at hu
        cases hL : updateAtL cs n p' f with
        | none => rw [hL] at hu; simp at hu
        | some cs' =>
            rw [hL] at hu
            simp only [Option.map_some', Option.some_inj] at hu
            rw [← hu, ihQ n p' cs' hL]
  · intro n p cs' hu
    simp [updateAtL] at hu
  · intro c0 cs ihP ihQ n p cs' hu
    cases c0 with
    | file pd nm sz sel ssz =>
        simp only [updateAtL] at hu
        cases hL : updateAtL cs n p f with
        | none => rw [hL] at hu; simp at hu
        | some cs0 =>
            rw [hL] at hu
            simp only [Option.map_some', Option.some_inj] at hu
            rw [← hu, ihQ n p cs0 hL]
    | dir pd nm sz fs sel ssz gs =>
        by_cases hnm : nm = n
        · subst hnm
          simp only [updateAtL, if_pos rfl] at hu
          cases hc1 : updateAt (Entry.dir pd nm sz fs sel ssz gs) p f with
          | none => rw [hc1] at hu; simp at hu
          | some c1 =>
              rw [hc1] at hu
              simp only [if_true, Option.map_some', Option.some_inj] at hu
              rw [← hu, ihP p c1 hc1]
        · simp only [updateAtL, if_neg hnm] at hu
          cases hL : updateAtL cs n p f with
          | none => rw [hL] at hu; simp at hu
          | some cs0 =>
              rw [hL] at hu
              simp only [Option.map_some', Option.some_inj] at hu
              rw [← hu, ihQ n p cs0 hL]

/-- Claim C8, amended: a directory whose children cannot be read is
still present in the tree and the scan continues, but the builder
records nothing distinctive about it: the `os.fwalk` record of a
genuinely empty readable directory (no subdirectories, no files) is a
no-op, so an unreadable directory (whose record `os.fwalk` silently
omits) produces exactly the node a genuinely empty directory produces
— size 0 and full size 0, with no "size unknown" marker. -/
theorem empty_record_noop (t : Entry) (p : List String) (t' : Entry)
    (h : processRecord t ⟨p, [], []⟩ = some t') : t' = t := by
  exact updateAt_congr_id _ (fun e => rfl) t p t' h

/-- Counterexample to claim C8 as stated: the stream in which directory
`d` is unreadable (it is announced but yields no record of its own) and
the stream in which `d` is genuinely empty (it yields an empty record)
build the very same tree, in which `d` has confirmed size 0 and full
size 0 — there is no distinct "size unknown" marker. -/
theorem unreadable_dir_no_marker :
    find_files "r" [⟨[], ["d"], []⟩] =
      find_files "r" [⟨[], ["d"], []⟩, ⟨["d"], [], []⟩] ∧
    find_files "r" [⟨[], ["d"], []⟩] =
      some (.dir [] "r" 0 0 (some false) 0 [.dir [] "d" 0 0 (some false) 0 []]) := by
  constructor <;>
    simp [find_files, build, processRecord, updateAt, updateAtL, appendRec,
      mkDirEntry, Entry.append, update_sizes, updateL, dirFullSum]

/-! ### The selection engine: `Model.setData` (claims C1, C4, C7, C9)

A `QModelIndex` is modelled as the chain of child-row numbers leading
from the root to the entry (`Model.index` builds indexes row by row);
an index that does not resolve corresponds to an invalid index.  The
root itself has no valid index, hence the `rows ≠ []` guard. -/

/-- Qt's `ItemDataRole.CheckStateRole`. -/
def checkStateRole : Nat := 10

/-- Overwrite the `selected` field of an entry (the assignment
`entry.selected = ...` in `Model.setData`). -/
def Entry.setSelected (e : Entry) (s : Option Bool) : Entry :=
  match e with
  | .file pd nm sz _ ssz => .file pd nm sz s ssz
  | .dir pd nm sz fs _ ssz cs => .dir pd nm sz fs s ssz cs

/-- The `match state` block of `Model.setData`: `0` → `False`
(Unchecked), `1` → `None` (PartiallyChecked), `2` → `True` (Checked);
any other value matches no case and leaves `selected` unchanged. -/
def applyCheckState (value : Nat) (e : Entry) : Entry :=
  match value with
  | 0 => e.setSelected (some false)
  | 1 => e.setSelected none
  | 2 => e.setSelected (some true)
  | _ => e

mutual
/-- Navigate to the entry at a row-index chain and rewrite it. -/
def updateRows : Entry → List Nat → (Entry → Entry) → Option Entry
  | e, [], f => some (f e)
  | .file _ _ _ _ _, _ :: _, _ => none
  | .dir pd nm sz fs sel ssz cs, i :: rest, f =>
      (updateRowsL cs i rest f).map (.dir pd nm sz fs sel ssz ·)

/-- Row navigation over a children list. -/
def updateRowsL : List Entry → Nat → List Nat → (Entry → Entry) → Option (List Entry)
  | [], _, _, _ => none
  | c :: cs, 0, rest, f => (updateRows c rest f).map (· :: cs)
  | c :: cs, i + 1, rest, f => (updateRowsL cs i rest f).map (c :: ·)
end

mutual
/-- Read-only row-index navigation. -/
def getRows : Entry → List Nat → Option Entry
  | e, [] => some e
  | .file _ _ _ _ _, _ :: _ => none
  | .dir _ _ _ _ _ _ cs, i :: rest => getRowsL cs i rest

/-- Read-only row navigation over a children list. -/
def getRowsL : List Entry → Nat → List Nat → Option Entry
  | [], _, _ => none
  | c :: _, 0, rest => getRows c rest
  | _ :: cs, i + 1, rest => getRowsL cs i rest
end

/-- `Model.setData` from the source: only `CheckStateRole` is handled
(anything else returns `False` and changes nothing).  For a valid index
in column 0 the `selected` field of the indexed entry is overwritten
according to `value`; the call to `propagate_change` is commented out
and `propagate_change` itself is a `pass` stub, so no other node is
touched, and `selected_size` is never recomputed.  The method returns
`True` for every `CheckStateRole` call. -/
def Model.setData (t : Entry) (rows : List Nat) (col : Nat) (value : Nat) (role : Nat) :
    Entry × Bool :=
  if role = checkStateRole then
    if rows ≠ [] ∧ col = 0 then
      match updateRows t rows (applyCheckState value) with
      | some t' => (t', true)
      | none => (t, true)
    else (t, true)
  else (t, false)

theorem updateRows_idem (f : Entry → Entry) (hidem : ∀ e, f (f e) = f e) :
    ∀ t, ∀ rs t', updateRows t rs f = some t' → updateRows t' rs f = some t' := by
  refine Entry.indN
    (P := fun t => ∀ rs t', updateRows t rs f = some t' → updateRows t' rs f = some t')
    (Q := fun cs => ∀ i rest cs', updateRowsL cs i rest f = some cs' →
      updateRowsL cs' i rest f = some cs')
    ?_ ?_ ?_ ?_
  · intro pd nm sz sel ssz rs t' hu
    cases rs with
    | nil =>
        simp only [updateRows, Option.some_inj] at hu ⊢
        rw [← hu, hidem]
    | cons i rest => simp [updateRows] at hu
  · intro pd nm sz fs sel ssz cs ihQ rs t' hu
    cases rs with
    | nil =>
        simp only [updateRows, Option.some_inj] at hu ⊢
        rw [← hu, hidem]
    | cons i rest =>
        simp only [updateRows] at hu
        cases hL : updateRowsL cs i rest f with
        | none => rw [hL] at hu; simp at hu
        | some cs' =>
            rw [hL] at hu
            simp only [Option.map_some', Option.some_inj] at hu
            rw [← hu]
            simp only [updateRows, ihQ i rest cs' hL, Option.map_some']
  · intro i rest cs' hu
    simp [updateRowsL] at hu
  · intro c cs ihP ihQ i rest cs' hu
    cases i with
    | zero =>
        simp only [updateRowsL] at hu
        cases hc : updateRows c rest f with
        | none => rw [hc] at hu; simp at hu
        | some c' =>
            rw [hc] at hu
            simp only [Option.map_some', Option.some_inj] at hu
            rw [← hu]
            simp only [updateRowsL, ihP rest c' hc, Option.map_some']
    | succ i =>
        simp only [updateRowsL] at hu
        cases hL : updateRowsL cs i rest f with
        | none => rw [hL] at hu; simp at hu
        | some cs0 =>
            rw [hL] at hu
            simp only [Option.map_some', Option.some_inj] at hu
            rw [← hu]
            simp only [updateRowsL, ihQ i rest cs0 hL, Option.map_some']

theorem applyCheckState_idem (value : Nat) (e : Entry) :
    applyCheckState value (applyCheckState value e) = applyCheckState value e := by
  rcases value with _ | _ | _ | n <;> cases e <;> rfl

/-- Claim C9: performing the same `setData` mutation twice in a row
leaves the tree — every node's `selected` state and `selected_size` —
and the returned flag identical to performing it once. -/
theorem setData_idempotent (t : Entry) (rows : List Nat) (col : Nat) (value : Nat)
    (role : Nat) :
    Model.setData (Model.setData t rows col value role).1 rows col value role =
      Model.setData t rows col value role := by
  by_cases hrole : role = checkStateRole
  · by_cases hvalid : rows ≠ [] ∧ col = 0
    · simp only [Model.setData, if_pos hrole, if_pos hvalid]
      cases hu : updateRows t rows (applyCheckState value) with
      | none => simp [hu]
      | some t' =>
          simp only
          rw [updateRows_idem (applyCheckState value) (applyCheckState_idem value)
            t rows t' hu]
    · simp [Model.setData, if_pos hrole, if_neg hvalid]
  · simp [Model.setData, if_neg hrole]

/-- Raw values handed to the view (`Model.raw_data`): strings, numbers
(`none` is Python's `None`, a file's `full_size`), or check states. -/
inductive RawData where
  | str (s : String)
  | num (n : Option Nat)
  | check (c : Nat)
  deriving Repr, DecidableEq

/-- The `full_size` field as the Python value: `None` for files. -/
def Entry.fullOpt : Entry → Option Nat
  | .file _ _ _ _ _ => none
  | .dir _ _ _ fs _ _ _ => some fs

/-- `Model.raw_data` from the source.  With `selected = True` it maps
the entry's `selected` field to a Qt check state; otherwise it returns
the column value — name, own size, full size, and for column 3 (the
"Selected Size" column) the literal constant `0`.  Any other column
raises `ValueError` (`none` here). -/
def Model.raw_data (e : Entry) (column : Nat) (selected : Bool) : Option RawData :=
  if selected then
    match e.selOf with
    | some true => some (.check 2)
    | none => some (.check 1)
    | some false => some (.check 0)
  else
    match column with
    | 0 => some (.str e.nameOf)
    | 1 => some (.num (some e.sizeOf'))
    | 2 => some (.num e.fullOpt)
    | 3 => some (.num (some 0))
    | _ => none

/-- Claim C1 fails on the code: `setData` on a directory with
`Checked` sets only that entry's `selected`; `propagate_change` is a
`pass` stub and its call is commented out, so the file grandchild keeps
its old `selected = False` — it is neither cleared nor resolved to the
desired `Included` state. -/
theorem setData_does_not_propagate :
    (Model.setData
        (.dir [] "root" 10 10 (some false) 0
          [.dir [] "d" 10 10 (some false) 0 [.file ["d"] "f" 10 (some false) 0]])
        [0] 0 2 checkStateRole).1 =
      .dir [] "root" 10 10 (some false) 0
        [.dir [] "d" 10 10 (some true) 0 [.file ["d"] "f" 10 (some false) 0]] := by
  simp [Model.setData, checkStateRole, updateRows, updateRowsL, applyCheckState,
    Entry.setSelected]

/-- Claim C4 fails on the code: after `setData` marks the only child —
a file of size 10 — as `Checked`, every `selected_size` is still `0`
(nothing ever writes it after `Entry.__init__`), although the fully
included subtree has aggregate size 10; and the view's "Selected Size"
column (`raw_data`, column 3) is the literal constant 0 for every
entry. -/
theorem setData_selected_size_stub :
    ((Model.setData (.dir [] "root" 10 10 (some false) 0 [.file [] "f" 10 (some false) 0])
        [0] 0 2 checkStateRole).1 =
      .dir [] "root" 10 10 (some false) 0 [.file [] "f" 10 (some true) 0]) ∧
    (Entry.dir [] "root" 10 10 (some false) 0
        [.file [] "f" 10 (some true) 0]).selSizeOf = 0 ∧
    (Entry.file [] "f" 10 (some true) 0).selSizeOf = 0 ∧
    (Entry.file [] "f" 10 (some true) 0).sizeOf' = 10 ∧
    (∀ e : Entry, Model.raw_data e 3 false = some (.num (some 0))) := by
  refine ⟨?_, rfl, rfl, rfl, ?_⟩
  · simp [Model.setData, checkStateRole, updateRows, updateRowsL, applyCheckState,
      Entry.setSelected]
  · intro e; rfl

/-- Counterexample to claim C7 as stated: `setData` with value `1`
(PartiallyChecked) on a *file* index sets that file's `selected` to
`None` — the file resolves as Mixed although it is not a directory and
has no descendants at all. -/
theorem setData_partial_on_file :
    (Model.setData (.dir [] "root" 5 5 (some false) 0 [.file [] "f" 5 (some false) 0])
        [0] 0 1 checkStateRole).1 =
      .dir [] "root" 5 5 (some false) 0 [.file [] "f" 5 none 0] ∧
    (Entry.file [] "f" 5 none 0).selOf = none ∧
    (Entry.file [] "f" 5 none 0).isDir = false := by
  refine ⟨?_, rfl, rfl⟩
  simp [Model.setData, checkStateRole, updateRows, updateRowsL, applyCheckState,
    Entry.setSelected]

mutual
/-- No node of the tree is PartiallyChecked (`selected = None`). -/
def noMixed : Entry → Bool
  | .file _ _ _ sel _ => sel != none
  | .dir _ _ _ _ sel _ cs => (sel != none) && noMixedL cs

/-- `noMixed` over a list of entries. -/
def noMixedL : List Entry → Bool
  | [] => true
  | c :: cs => noMixed c && noMixedL cs
end

theorem noMixedL_append (xs ys : List Entry) :
    noMixedL (xs ++ ys) = (noMixedL xs && noMixedL ys) := by
  induction xs with
  | nil => simp [noMixedL]
  | cons c cs ih => simp [noMixedL, ih, Bool.and_assoc]

theorem noMixed_append (pe child : Entry) (h1 : noMixed pe = true)
    (h2 : noMixed child = true) : noMixed (pe.append child) = true := by
  cases pe with
  | file pd nm sz sel ssz => simpa [Entry.append] using h1
  | dir pd nm sz fs sel ssz cs =>
      cases child <;>
        (simp [Entry.append, noMixed, noMixedL_append, noMixedL] at h1 h2 ⊢
         exact ⟨h1.1, h1.2, h2⟩)

theorem noMixed_foldl_dirs (par : List String) (ds : List String) :
    ∀ pe : Entry, noMixed pe = true →
      noMixed ((ds.map (mkDirEntry par)).foldl Entry.append pe) = true := by
  induction ds with
  | nil => intro pe h; simpa using h
  | cons d ds ih =>
      intro pe h
      simp only [List.map_cons, List.foldl_cons]
      exact ih _ (noMixed_append pe _ h (by simp [mkDirEntry, noMixed, noMixedL]))

theorem noMixed_foldl_files (par : List String) (l : List (String × Option Nat)) :
    ∀ pe : Entry, noMixed pe = true →
      noMixed ((l.map (fun fr => mkFileEntry par fr.1 fr.2)).foldl Entry.append pe) = true := by
  induction l with
  | nil => intro pe h; simpa using h
  | cons fr l ih =>
      intro pe h
      simp only [List.map_cons, List.foldl_cons]
      exact ih _ (noMixed_append pe _ h (by simp [mkFileEntry, noMixed]))

theorem noMixed_appendRec (pe : Entry) (r : FwalkRec) (h : noMixed pe = true) :
    noMixed (appendRec pe r) = true := by
  exact noMixed_foldl_files r.parent r.files _ (noMixed_foldl_dirs r.parent r.dirs pe h)

theorem updateAt_noMixed (f : Entry → Entry)
    (hf : ∀ e, noMixed e = true → noMixed (f e) = true) :
    ∀ t, ∀ p t', noMixed t = true → updateAt t p f = some t' → noMixed t' = true := by
  refine Entry.indN
    (P := fun t => ∀ p t', noMixed t = true → updateAt t p f = some t' →
      noMixed t' = true)
    (Q := fun cs => ∀ n p cs', noMixedL cs = true → updateAtL cs n p f = some cs' →
      noMixedL cs' = true)
    ?_ ?_ ?_ ?_
  · intro pd nm sz sel ssz p t' h hu
    cases p with
    | nil =>
        simp only [updateAt, Option.some_inj] at hu
        exact hu ▸ hf _ h
    | cons n p' => simp [updateAt] at hu
  · intro pd nm sz fs sel ssz cs ihQ p t' h hu
    cases p with
    | nil =>
        simp only [updateAt, Option.some_inj] at hu
        exact hu ▸ hf _ h
    | cons n p' =>
        simp only [updateAt] at hu
        cases hL : updateAtL cs n p' f with
        | none => rw [hL] at hu; simp at hu
        | some cs' =>
            rw [hL] at hu
            simp only [Option.map_some', Option.some_inj] at hu
            simp only [noMixed, Bool.and_eq_true] at h
            rw [← hu]
            simp only [noMixed, Bool.and_eq_true]
            exact ⟨h.1, ihQ n p' cs' h.2 hL⟩
  · intro n p cs' h hu
    simp [updateAtL] at hu
  · intro c0 cs ihP ihQ n p cs' h hu
    simp only [noMixedL, Bool.and_eq_true] at h
    cases c0 with
    | file pd nm sz sel ssz =>
        simp only [updateAtL] at hu
        cases hL : updateAtL cs n p f with
        | none => rw [hL] at hu; simp at hu
        | some cs0 =>
            rw [hL] at hu
            simp only [Option.map_some', Option.some_inj] at hu
            rw [← hu]
            simp only [noMixedL, Bool.and_eq_true]
            exact ⟨h.1, ihQ n p cs0 h.2 hL⟩
    | dir pd nm sz fs sel ssz gs =>
        by_cases hnm : nm = n
        · subst hnm
          simp only [updateAtL, if_pos rfl] at hu
          cases hc1 : updateAt (Entry.dir pd nm sz fs sel ssz gs) p f with
          | none => rw [hc1] at hu; simp at hu
          | some c1 =>
              rw [hc1] at hu
              simp only [if_true, Option.map_some', Option.some_inj] at hu
              rw [← hu]
              simp only [noMixedL, Bool.and_eq_true]
              exact ⟨ihP p c1 h.1 hc1, h.2⟩
        · simp only [updateAtL, if_neg hnm] at hu
          cases hL : updateAtL cs n p f with
          | none => rw [hL] at hu; simp at hu
          | some cs0 =>
              rw [hL] at hu
              simp only [Option.map_some', Option.some_inj] at hu
              rw [← hu]
              simp only [noMixedL, Bool.and_eq_true]
              exact ⟨h.1, ihQ n p cs0 h.2 hL⟩

theorem build_noMixed (recs : List FwalkRec) :
    ∀ t t', noMixed t = true → build t recs = some t' → noMixed t' = true := by
  induction recs with
  | nil =>
      intro t t' h heq
      simp only [build, Option.some_inj] at heq
      exact heq ▸ h
  | cons r rs ih =>
      intro t t' h heq
      simp only [build] at heq
      cases hpr : processRecord t r with
      | none => rw [hpr] at heq; cases heq
      | some t0 =>
          rw [hpr] at heq
          exact ih t0 t' (updateAt_noMixed _ (fun e he => noMixed_appendRec e r he)
            t r.parent t0 h hpr) heq

theorem update_sizes_noMixed :
    ∀ t, noMixed t = true → noMixed (update_sizes t) = true := by
  refine Entry.indN
    (P := fun t => noMixed t = true → noMixed (update_sizes t) = true)
    (Q := fun cs => noMixedL cs = true → noMixedL (updateL cs) = true)
    ?_ ?_ ?_ ?_
  · intro pd nm sz sel ssz h
    simpa [update_sizes, noMixed] using h
  · intro pd nm sz fs sel ssz cs ihQ h
    simp only [noMixed, Bool.and_eq_true] at h
    simp only [update_sizes, noMixed, Bool.and_eq_true]
    exact ⟨h.1, ihQ h.2⟩
  · intro h
    simpa [updateL] using h
  · intro c0 cs ihP ihQ h
    simp only [noMixedL, Bool.and_eq_true] at h
    cases c0 with
    | file pd nm sz sel ssz =>
        simp only [updateL, noMixedL, Bool.and_eq_true]
        exact ⟨h.1, ihQ h.2⟩
    | dir pd nm sz fs sel ssz gs =>
        simp only [updateL, noMixedL, Bool.and_eq_true]
        exact ⟨ihP h.1, ihQ h.2⟩

theorem updateRows_noMixed (f : Entry → Entry)
    (hf : ∀ e, noMixed e = true → noMixed (f e) = true) :
    ∀ t, ∀ rs t', noMixed t = true → updateRows t rs f = some t' → noMixed t' = true := by
  refine Entry.indN
    (P := fun t => ∀ rs t', noMixed t = true → updateRows t rs f = some t' →
      noMixed t' = true)
    (Q := fun cs => ∀ i rest cs', noMixedL cs = true → updateRowsL cs i rest f = some cs' →
      noMixedL cs' = true)
    ?_ ?_ ?_ ?_
  · intro pd nm sz sel ssz rs t' h hu
    cases rs with
    | nil =>
        simp only [updateRows, Option.some_inj] at hu
        exact hu ▸ hf _ h
    | cons i rest => simp [updateRows] at hu
  · intro pd nm sz fs sel ssz cs ihQ rs t' h hu
    cases rs with
    | nil =>
        simp only [updateRows, Option.some_inj] at hu
        exact hu ▸ hf _ h
    | cons i rest =>
        simp only [updateRows] at hu
        cases hL : updateRowsL cs i rest f with
        | none => rw [hL] at hu; simp at hu
        | some cs' =>
            rw [hL] at hu
            simp only [Option.map_some', Option.some_inj] at hu
            simp only [noMixed, Bool.and_eq_true] at h
            rw [← hu]
            simp only [noMixed, Bool.and_eq_true]
            exact ⟨h.1, ihQ i rest cs' h.2 hL⟩
  · intro i rest cs' h hu
    simp [updateRowsL] at hu
  · intro c0 cs ihP ihQ i rest cs' h hu
    simp only [noMixedL, Bool.and_eq_true] at h
    cases i with
    | zero =>
        simp only [updateRowsL] at hu
        cases hc : updateRows c0 rest f with
        | none => rw [hc] at hu; simp at hu
        | some c1 =>
            rw [hc] at hu
            simp only [Option.map_some', Option.some_inj] at hu
            rw [← hu]
            simp only [noMixedL, Bool.and_eq_true]
            exact ⟨ihP rest c1 h.1 hc, h.2⟩
    | succ i =>
        simp only [updateRowsL] at hu
        cases hL : updateRowsL cs i rest f with
        | none => rw [hL] at hu; simp at hu
        | some cs0 =>
            rw [hL] at hu
            simp only [Option.map_some', Option.some_inj] at hu
            rw [← hu]
            simp only [noMixedL, Bool.and_eq_true]
            exact ⟨h.1, ihQ i rest cs0 h.2 hL⟩

theorem noMixed_applyCheckState (value : Nat) (hv : value = 0 ∨ value = 2) (e : Entry)
    (h : noMixed e = true) : noMixed (applyCheckState value e) = true := by
  rcases hv with rfl | rfl
  all_goals cases e with
    | file pd nm sz sel ssz => simp [applyCheckState, Entry.setSelected, noMixed]
    | dir pd nm sz fs sel ssz cs =>
        simp only [applyCheckState, Entry.setSelected, noMixed, Bool.and_eq_true] at h ⊢
        exact ⟨by simp, h.2⟩

/-- One recorded `setData` call: row chain, column, value, role. -/
structure Mutation where
  rows : List Nat
  col : Nat
  value : Nat
  role : Nat

/-- Apply a sequence of `setData` calls, threading the tree. -/
def applyMuts (t : Entry) : List Mutation → Entry
  | [] => t
  | m :: ms => applyMuts (Model.setData t m.rows m.col m.value m.role).1 ms

theorem setData_noMixed (t : Entry) (rows : List Nat) (col : Nat) (value : Nat)
    (role : Nat) (hv : value = 0 ∨ value = 2) (h : noMixed t = true) :
    noMixed (Model.setData t rows col value role).1 = true := by
  by_cases hrole : role = checkStateRole
  · by_cases hvalid : rows ≠ [] ∧ col = 0
    · simp only [Model.setData, if_pos hrole, if_pos hvalid]
      cases hu : updateRows t rows (applyCheckState value) with
      | none => simpa using h
      | some t' =>
          simpa using updateRows_noMixed (applyCheckState value)
            (noMixed_applyCheckState value hv) t rows t' h hu
    · simpa [Model.setData, if_pos hrole, if_neg hvalid] using h
  · simpa [Model.setData, if_neg hrole] using h

/-- Claim C7, amended: the builder's trees start with every node
Unchecked, and under any sequence of `setData` mutations restricted to
the spec's two states (Unchecked/Checked, values 0 and 2) no node —
in particular no file — ever becomes Mixed (`selected = None`).  With
value 1 (PartiallyChecked) however `setData` sets `selected = None` on
any node, even a file (see the counterexample). -/
theorem noMixed_reachable :
    (∀ rootName recs t, find_files rootName recs = some t → noMixed t = true) ∧
    (∀ t ms, noMixed t = true → (∀ m ∈ ms, m.value = 0 ∨ m.value = 2) →
      noMixed (applyMuts t ms) = true) := by
  constructor
  · intro rootName recs t h
    simp only [find_files, Option.map_eq_some'] at h
    obtain ⟨t0, hb, rfl⟩ := h
    have hroot : noMixed (Entry.dir [] rootName 0 0 (some false) 0 []) = true := by
      simp [noMixed, noMixedL]
    exact update_sizes_noMixed t0 (build_noMixed recs _ t0 hroot hb)
  · intro t ms
    induction ms generalizing t with
    | nil => intro h _; simpa [applyMuts] using h
    | cons m ms ih =>
        intro h hv
        simp only [applyMuts]
        exact ih _ (setData_noMixed t m.rows m.col m.value m.role
          (hv m (List.mem_cons_self m ms)) h) (fun m' hm' => hv m' (List.mem_cons_of_mem m hm'))

/-! ### `human_size` (claim C10)

Python floats are modelled by `ℚ`: division by 1024 (a power of two)
is exact in binary floating point until underflow, and the properties
claimed — the `None` pass-through, termination, and the suffix-index
bound — do not depend on rounding of the displayed digits. -/

/-- The unit-suffix table from the source. -/
def suffixes : List String := ["B", "KiB", "MiB", "GiB", "TiB", "PiB"]

/-- The `while size >= 1024 and index < len(suffixes) - 1` loop of
`human_size`: repeatedly divide by 1024 and advance the suffix index. -/
def hsLoop (size : ℚ) (index : Nat) : ℚ × Nat :=
  if h : 1024 ≤ size ∧ index < suffixes.length - 1 then hsLoop (size / 1024) (index + 1)
  else (size, index)
termination_by suffixes.length - 1 - index
decreasing_by
  have := h.2
  omega

/-- `f"{size:.2f}"`: render with exactly two decimals, rounding half
to even as Python's float formatting does. -/
def fmt2 (q : ℚ) : String :=
  let r : ℚ := q * 100
  let n : ℤ := ⌊r⌋
  let cents : ℤ :=
    if 1 / 2 < r - n then n + 1
    else if r - n < 1 / 2 then n
    else if n % 2 = 0 then n else n + 1
  let ip : ℤ := cents / 100
  let fp : Nat := (cents % 100).toNat
  toString ip ++ "." ++ (if fp < 10 then "0" else "") ++ toString fp

/-- `human_size` from the source: `None` passes through; otherwise run
the halving loop, format with two decimals, strip trailing zeros and a
trailing dot (Python's `.rstrip('0').rstrip('.')`), and attach the
suffix at the final loop index (`suffixes[index]`; an out-of-range
index — Python's `IndexError` — would surface as `none` here). -/
def human_size (x : Option ℚ) : Option String :=
  match x with
  | none => none
  | some size =>
      let sp := hsLoop size 0
      (suffixes.get? sp.2).map (fun suf =>
        (((fmt2 sp.1).dropRightWhile (fun c => c == '0')).dropRightWhile
          (fun c => c == '.')) ++ suf)

theorem hsLoop_index_le (size : ℚ) (index : Nat) (h : index ≤ suffixes.length - 1) :
    (hsLoop size index).2 ≤ suffixes.length - 1 := by
  rw [hsLoop]
  split
  next h' => exact hsLoop_index_le (size / 1024) (index + 1) (by omega)
  next => exact h
termination_by suffixes.length - 1 - index
decreasing_by
  rename_i h'
  have := h'.2
  omega

/-- Claim C10: `human_size` is total — it returns `None` exactly on the
`None` input, and for every non-negative size it terminates with a
string carrying one of the six suffixes: the halving loop never pushes
the index past 5, so the suffix lookup cannot go out of range. -/
theorem human_size_total :
    human_size none = none ∧
    ∀ q : ℚ, 0 ≤ q → ∃ pre : String, ∃ i : Fin suffixes.length,
      human_size (some q) = some (pre ++ suffixes.get i) := by
  refine ⟨rfl, ?_⟩
  intro q _
  have hle : (hsLoop q 0).2 ≤ suffixes.length - 1 :=
    hsLoop_index_le q 0 (by simp [suffixes])
  have hlt : (hsLoop q 0).2 < suffixes.length := by
    simp only [suffixes, List.length] at hle ⊢
    omega
  refine ⟨((fmt2 (hsLoop q 0).1).dropRightWhile (fun c => c == '0')).dropRightWhile
    (fun c => c == '.'), ⟨(hsLoop q 0).2, hlt⟩, ?_⟩
  simp only [human_size, List.get?_eq_get hlt, Option.map_some']

/-! ### Claim C3: the Rule Deriver (spec section 4.4)

No Rule Deriver exists in the source — the long comment block inside
`Model.setData` only sketches include/exclude lists.  The definitions
below are therefore modelled from the spec, not from code, and the
claim is settled against them.  Paths are again segment lists; a rule
`(polarity, path)` applies to every path it is a segment-wise prefix
of; rules are applied in order with later (more specific) rules
overriding earlier ones, the spec's filter-engine semantics. -/

/-- Modelled from the spec: the resolved tri-state of a node
(`resolvedSelection ∈ {Included, Excluded, Mixed}`). -/
inductive Sel where
  | Included
  | Excluded
  | Mixed
  deriving Repr, DecidableEq

/-- The tri-state a boolean (include?) polarity denotes. -/
def selOfBool (b : Bool) : Sel := if b then .Included else .Excluded

/-- Modelled from the spec: a tree node carrying its resolved
selection — a file resolves to a two-state value (files are never
Mixed), a directory to a tri-state. -/
inductive RNode where
  | rfile (name : String) (sel : Bool)
  | rdir (name : String) (sel : Sel) (children : List RNode)
  deriving Repr

/-- The node's name. -/
def RNode.rname : RNode → String
  | .rfile n _ => n
  | .rdir n _ _ => n

/-- The node's resolved selection as a `Sel`. -/
def childSel : RNode → Sel
  | .rfile _ s => selOfBool s
  | .rdir _ s _ => s

/-- Combine two resolved states: agreement keeps the state, any
disagreement is `Mixed`. -/
def combine2 (a b : Sel) : Sel := if a = b then a else .Mixed

/-- Fold `combine2` over the resolved states of a children list. -/
def resCombine (acc : Sel) : List RNode → Sel
  | [] => acc
  | c :: cs => resCombine (combine2 acc (childSel c)) cs

mutual
/-- Modelled from the spec (§3): the tree's selection is resolved —
every directory's `resolvedSelection` is the combination of its
children's (all agree → that state, otherwise `Mixed`); an empty
directory is not `Mixed`. -/
def consistentB : RNode → Bool
  | .rfile _ _ => true
  | .rdir _ s [] => s != Sel.Mixed
  | .rdir _ s (c :: cs) => (s == resCombine (childSel c) cs) && consistentL (c :: cs)

/-- `consistentB` over a list of nodes. -/
def consistentL : List RNode → Bool
  | [] => true
  | c :: cs => consistentB c && consistentL cs
end

/-- Sibling names are pairwise distinct (true of any filesystem
directory listing). -/
def nodupNames : List RNode → Bool
  | [] => true
  | c :: cs => cs.all (fun c2 => c2.rname != c.rname) && nodupNames cs

mutual
/-- Every directory of the tree has pairwise-distinct child names. -/
def wfB : RNode → Bool
  | .rfile _ _ => true
  | .rdir _ _ cs => nodupNames cs && wfL cs

/-- `wfB` over a list of nodes. -/
def wfL : List RNode → Bool
  | [] => true
  | c :: cs => wfB c && wfL cs
end

/-- Modelled from the spec: one derived rule — a polarity
(`true` = Include, `false` = Exclude) and a path. -/
structure Rule where
  pol : Bool
  path : List String
  deriving Repr

/-- Apply rules in order starting from `init` (the state inherited
from rules already processed): each rule whose path is a prefix of `q`
overrides the current state — later, more specific rules win, exactly
as a prefix-matching filter engine resolves `q`. -/
def applyFrom (init : Bool) (rules : List Rule) (q : List String) : Bool :=
  rules.foldl (fun acc r => if r.path.isPrefixOf q then r.pol else acc) init

mutual
/-- Modelled from the spec (§4.4), recursive step: at a node whose
resolved state differs from the inherited one emit one rule and prune
(a fully agreeing subtree needs no rules); at a `Mixed` directory emit
nothing and recurse with the same inherited state. -/
def deriveNode (p : List String) (inh : Bool) : RNode → List Rule
  | .rfile n s => if s = inh then [] else [⟨s, p ++ [n]⟩]
  | .rdir n s cs =>
      match s with
      | .Mixed => deriveL (p ++ [n]) inh cs
      | .Included => if inh then [] else [⟨true, p ++ [n]⟩]
      | .Excluded => if inh then [⟨false, p ++ [n]⟩] else []

/-- `deriveNode` over a children list, concatenating in order. -/
def deriveL (p : List String) (inh : Bool) : List RNode → List Rule
  | [] => []
  | c :: cs => deriveNode p inh c ++ deriveL p inh cs
end

/-- Modelled from the spec (§4.4), entry point: the root's rule is the
polarity of its resolved state when that is not `Mixed` (such a
consistent root makes the whole tree agree, so nothing else is
needed); a `Mixed` root emits no rule of its own and its children are
derived against the default inherited state, `Excluded`. -/
def deriveRules : RNode → List Rule
  | .rfile n s => [⟨s, [n]⟩]
  | .rdir n s cs =>
      match s with
      | .Mixed => deriveL [n] false cs
      | .Included => [⟨true, [n]⟩]
      | .Excluded => [⟨false, [n]⟩]

mutual
/-- The resolved state the rule list `R` assigns to a node at parent
path `p`: leaves (files and childless directories) take the filter
result on their own path, directories combine their children — the
state a prefix-matching filter engine effectively gives the subtree. -/
def appliedSel (R : List Rule) (p : List String) : RNode → Sel
  | .rfile n _ => selOfBool (applyFrom false R (p ++ [n]))
  | .rdir n _ [] => selOfBool (applyFrom false R (p ++ [n]))
  | .rdir n _ (c :: cs) => appliedL R (p ++ [n]) (appliedSel R (p ++ [n]) c) cs

/-- Fold of `combine2` over children's `appliedSel`. -/
def appliedL (R : List Rule) (p : List String) (acc : Sel) : List RNode → Sel
  | [] => acc
  | c :: cs => appliedL R p (combine2 acc (appliedSel R p c)) cs
end

mutual
/-- The rule list `R` reproduces `resolvedSelection` at every node of
the tree rooted below parent path `p`. -/
def reproducesB (R : List Rule) (p : List String) : RNode → Bool
  | .rfile n s => applyFrom false R (p ++ [n]) == s
  | .rdir n s cs => (appliedSel R p (.rdir n s cs) == s) && reproducesL R (p ++ [n]) cs

/-- `reproducesB` over a list of nodes. -/
def reproducesL (R : List Rule) (p : List String) : List RNode → Bool
  | [] => true
  | c :: cs => reproducesB R p c && reproducesL R p cs
end

mutual
/-- Generic induction over `RNode` (nested inductive), node part. -/
def RNode.indN {P : RNode → Prop} {Q : List RNode → Prop}
    (hfile : ∀ n s, P (.rfile n s))
    (hdir : ∀ n s cs, Q cs → P (.rdir n s cs))
    (hnil : Q [])
    (hcons : ∀ c cs, P c → Q cs → Q (c :: cs)) : ∀ t, P t
  | .rfile n s => hfile n s
  | .rdir n s cs => hdir n s cs (RNode.indL hfile hdir hnil hcons cs)

/-- Generic induction over `RNode` (nested inductive), list part. -/
def RNode.indL {P : RNode → Prop} {Q : List RNode → Prop}
    (hfile : ∀ n s, P (.rfile n s))
    (hdir : ∀ n s cs, Q cs → P (.rdir n s cs))
    (hnil : Q [])
    (hcons : ∀ c cs, P c → Q cs → Q (c :: cs)) : ∀ cs, Q cs
  | [] => hnil
  | c :: cs =>
      hcons c cs (RNode.indN hfile hdir hnil hcons c) (RNode.indL hfile hdir hnil hcons cs)
end

theorem applyFrom_append (init : Bool) (A B : List Rule) (q : List String) :
    applyFrom init (A ++ B) q = applyFrom (applyFrom init A q) B q := by
  simp [applyFrom, List.foldl_append]

theorem applyFrom_no_match (S : List Rule) (q : List String)
    (h : ∀ r ∈ S, r.path.isPrefixOf q = false) :
    ∀ init, applyFrom init S q = init := by
  induction S with
  | nil => intro init; rfl
  | cons r S ih =>
      intro init
      simp only [applyFrom, List.foldl_cons, h r (List.mem_cons_self r S), Bool.false_eq_true,
        if_false]
      exact ih (fun r' hr' => h r' (List.mem_cons_of_mem r hr')) init

theorem applyFrom_single (init b : Bool) (pth q : List String) :
    applyFrom init [⟨b, pth⟩] q = if pth.isPrefixOf q then b else init := by
  rfl

theorem prefix_disjoint (a : List String) (x y : String) (r q : List String)
    (h1 : a ++ [x] <+: r) (h2 : a ++ [y] <+: q) (hxy : x ≠ y) :
    r.isPrefixOf q = false := by
  rw [← Bool.not_eq_true, List.isPrefixOf_iff_prefix]
  obtain ⟨r', rfl⟩ := h1
  obtain ⟨q', rfl⟩ := h2
  intro hc
  simp only [List.append_assoc, List.prefix_append_right_inj] at hc
  rw [List.singleton_append, List.singleton_append, List.cons_prefix_cons] at hc
  exact hxy hc.1

theorem deriveNode_paths :
    ∀ t : RNode, ∀ p inh, ∀ r ∈ deriveNode p inh t, (p ++ [t.rname]) <+: r.path := by
  refine RNode.indN
    (P := fun t => ∀ p inh, ∀ r ∈ deriveNode p inh t, (p ++ [t.rname]) <+: r.path)
    (Q := fun cs => ∀ p inh, ∀ r ∈ deriveL p inh cs, ∃ c ∈ cs, (p ++ [c.rname]) <+: r.path)
    ?_ ?_ ?_ ?_
  · intro n s p inh r hr
    simp only [deriveNode] at hr
    by_cases hsi : s = inh
    · simp [hsi] at hr
    · simp only [hsi, if_neg, ite_false] at hr
      simp only [List.mem_singleton] at hr
      rw [hr]
      exact List.prefix_refl _
  · intro n s cs ihQ p inh r hr
    simp only [deriveNode] at hr
    cases s with
    | Mixed =>
        obtain ⟨c, _, hpc⟩ := ihQ (p ++ [n]) inh r hr
        calc p ++ [RNode.rname (.rdir n .Mixed cs)] = p ++ [n] := rfl
        _ <+: (p ++ [n]) ++ [c.rname] := List.prefix_append _ _
        _ <+: r.path := hpc
    | Included =>
        cases inh with
        | true => simp at hr
        | false =>
            simp only [Bool.false_eq_true, if_false, List.mem_singleton] at hr
            subst hr
            exact List.prefix_refl _
    | Excluded =>
        cases inh with
        | false => simp at hr
        | true =>
            simp only [if_true, List.mem_singleton] at hr
            subst hr
            exact List.prefix_refl _
  · intro p inh r hr
    simp [deriveL] at hr
  · intro c cs ihP ihQ p inh r hr
    simp only [deriveL, List.mem_append] at hr
    rcases hr with hr | hr
    · exact ⟨c, List.mem_cons_self c cs, ihP p inh r hr⟩
    · obtain ⟨c', hc', hp⟩ := ihQ p inh r hr
      exact ⟨c', List.mem_cons_of_mem c hc', hp⟩

theorem resCombine_included :
    ∀ cs acc, resCombine acc cs = .Included → acc = .Included ∧
      ∀ c ∈ cs, childSel c = .Included := by
  intro cs
  induction cs with
  | nil => intro acc h; exact ⟨h, by simp⟩
  | cons c cs ih =>
      intro acc h
      simp only [resCombine] at h
      obtain ⟨h1, h2⟩ := ih _ h
      have hc : acc = .Included ∧ childSel c = .Included := by
        simp only [combine2] at h1
        split at h1
        · next heq => exact ⟨h1, heq ▸ h1⟩
        · cases h1
      refine ⟨hc.1, ?_⟩
      intro c' hc'
      rcases List.mem_cons.mp hc' with rfl | hmem
      · exact hc.2
      · exact h2 c' hmem

theorem resCombine_excluded :
    ∀ cs acc, resCombine acc cs = .Excluded → acc = .Excluded ∧
      ∀ c ∈ cs, childSel c = .Excluded := by
  intro cs
  induction cs with
  | nil => intro acc h; exact ⟨h, by simp⟩
  | cons c cs ih =>
      intro acc h
      simp only [resCombine] at h
      obtain ⟨h1, h2⟩ := ih _ h
      have hc : acc = .Excluded ∧ childSel c = .Excluded := by
        simp only [combine2] at h1
        split at h1
        · next heq => exact ⟨h1, heq ▸ h1⟩
        · cases h1
      refine ⟨hc.1, ?_⟩
      intro c' hc'
      rcases List.mem_cons.mp hc' with rfl | hmem
      · exact hc.2
      · exact h2 c' hmem

theorem reproduces_appliedSel (R : List Rule) (p : List String) (c : RNode)
    (h : reproducesB R p c = true) : appliedSel R p c = childSel c := by
  cases c with
  | rfile n s =>
      simp only [reproducesB, beq_iff_eq] at h
      simp [appliedSel, childSel, h]
  | rdir n s cs =>
      simp only [reproducesB, Bool.and_eq_true, beq_iff_eq] at h
      exact h.1

theorem appliedL_eq_resCombine (R : List Rule) (p : List String) :
    ∀ cs, (∀ c ∈ cs, appliedSel R p c = childSel c) →
      ∀ acc, appliedL R p acc cs = resCombine acc cs := by
  intro cs
  induction cs with
  | nil => intro _ acc; rfl
  | cons c cs ih =>
      intro h acc
      simp only [appliedL, resCombine, h c (List.mem_cons_self c cs)]
      exact ih (fun c' hc' => h c' (List.mem_cons_of_mem c hc')) _

theorem deriveL_paths (p : List String) (inh : Bool) :
    ∀ cs, ∀ r ∈ deriveL p inh cs, ∃ c ∈ cs, (p ++ [c.rname]) <+: r.path := by
  intro cs
  induction cs with
  | nil => intro r hr; simp [deriveL] at hr
  | cons c cs ih =>
      intro r hr
      simp only [deriveL, List.mem_append] at hr
      rcases hr with hr | hr
      · exact ⟨c, List.mem_cons_self c cs, deriveNode_paths c p inh r hr⟩
      · obtain ⟨c', hc', hp⟩ := ih r hr
        exact ⟨c', List.mem_cons_of_mem c hc', hp⟩

theorem deriveL_isolate (p' : List String) (inh : Bool) :
    ∀ cs, nodupNames cs = true → ∀ c ∈ cs, ∀ q, (p' ++ [c.rname]) <+: q →
      ∀ init, applyFrom init (deriveL p' inh cs) q = applyFrom init (deriveNode p' inh c) q := by
  intro cs
  induction cs with
  | nil => intro _ c hc; simp at hc
  | cons c0 cs ih =>
      intro hnd c hc q hq init
      simp only [nodupNames, Bool.and_eq_true, List.all_eq_true] at hnd
      obtain ⟨hall, hnd'⟩ := hnd
      simp only [deriveL]
      rw [applyFrom_append]
      rcases List.mem_cons.mp hc with rfl | hmem
      · rw [applyFrom_no_match (deriveL p' inh cs) q ?_ _]
        intro r hr
        obtain ⟨c', hc', hp⟩ := deriveL_paths p' inh cs r hr
        have hne : c'.rname ≠ c.rname := by
          have := hall c' hc'
          simpa using this
        exact prefix_disjoint p' c'.rname c.rname r.path q hp hq hne
      · rw [applyFrom_no_match (deriveNode p' inh c0) q ?_ init]
        · exact ih hnd' c hmem q hq init
        · intro r hr
          have hp := deriveNode_paths c0 p' inh r hr
          have hne : c0.rname ≠ c.rname := by
            have := hall c hmem
            simpa [ne_comm] using this
          exact prefix_disjoint p' c0.rname c.rname r.path q hp hq hne

theorem reproducesL_forall (R : List Rule) (p : List String) :
    ∀ cs, reproducesL R p cs = true → ∀ c ∈ cs, reproducesB R p c = true := by
  intro cs
  induction cs with
  | nil => intro _ c hc; simp at hc
  | cons c0 cs ih =>
      intro h c hc
      simp only [reproducesL, Bool.and_eq_true] at h
      rcases List.mem_cons.mp hc with rfl | hmem
      · exact h.1
      · exact ih h.2 c hmem

theorem selOfBool_inj (s b : Bool) (h : selOfBool s = selOfBool b) : s = b := by
  cases s <;> cases b <;> simp [selOfBool] at h ⊢

theorem isPrefixOf_of_pref (l1 l2 : List String) (h : l1 <+: l2) :
    l1.isPrefixOf l2 = true :=
  List.isPrefixOf_iff_prefix.mpr h

theorem applyFrom_exclude_single (pth q : List String) :
    applyFrom false [⟨false, pth⟩] q = false := by
  rw [applyFrom_single]
  split <;> rfl

theorem agreeNode :
    ∀ t : RNode, ∀ p (b : Bool) G, consistentB t = true → childSel t = selOfBool b →
      (∀ q, (p ++ [t.rname]) <+: q → applyFrom false G q = b) →
      reproducesB G p t = true := by
  refine RNode.indN
    (P := fun t => ∀ p (b : Bool) G, consistentB t = true → childSel t = selOfBool b →
      (∀ q, (p ++ [t.rname]) <+: q → applyFrom false G q = b) →
      reproducesB G p t = true)
    (Q := fun cs => ∀ p' (b : Bool) G, consistentL cs = true →
      (∀ c ∈ cs, childSel c = selOfBool b) →
      (∀ q, p' <+: q → applyFrom false G q = b) →
      reproducesL G p' cs = true)
    ?_ ?_ ?_ ?_
  · intro n s p b G _ hsel hG
    have hsb : s = b := selOfBool_inj s b hsel
    simp only [reproducesB, beq_iff_eq]
    rw [hG (p ++ [n]) (List.prefix_refl _), hsb]
  · intro n s cs ihQ p b G hcons hsel hG
    simp only [childSel] at hsel
    cases cs with
    | nil =>
        simp only [reproducesB, reproducesL, Bool.and_eq_true, beq_iff_eq]
        refine ⟨?_, trivial⟩
        simp only [appliedSel]
        rw [hG (p ++ [n]) (List.prefix_refl _), hsel]
    | cons c cs' =>
        simp only [consistentB, Bool.and_eq_true, beq_iff_eq] at hcons
        obtain ⟨hres, hconsL⟩ := hcons
        have hchild : ∀ c' ∈ c :: cs', childSel c' = selOfBool b := by
          cases b with
          | true =>
              simp only [selOfBool, if_true] at hsel ⊢
              obtain ⟨h1, h2⟩ := resCombine_included cs' (childSel c) (by rw [← hres, hsel])
              intro c' hc'
              rcases List.mem_cons.mp hc' with rfl | hm
              · exact h1
              · exact h2 c' hm
          | false =>
              simp only [selOfBool, Bool.false_eq_true, if_false] at hsel ⊢
              obtain ⟨h1, h2⟩ := resCombine_excluded cs' (childSel c) (by rw [← hres, hsel])
              intro c' hc'
              rcases List.mem_cons.mp hc' with rfl | hm
              · exact h1
              · exact h2 c' hm
        have hG' : ∀ q, (p ++ [n]) <+: q → applyFrom false G q = b := hG
        have hrep : reproducesL G (p ++ [n]) (c :: cs') = true :=
          ihQ (p ++ [n]) b G hconsL hchild hG'
        simp only [reproducesB, Bool.and_eq_true, beq_iff_eq]
        refine ⟨?_, hrep⟩
        have hpt : ∀ c' ∈ c :: cs', appliedSel G (p ++ [n]) c' = childSel c' := by
          intro c' hc'
          exact reproduces_appliedSel G (p ++ [n]) c'
            (reproducesL_forall G (p ++ [n]) _ hrep c' hc')
        simp only [appliedSel]
        rw [hpt c (List.mem_cons_self c cs'),
          appliedL_eq_resCombine G (p ++ [n]) cs'
            (fun c' hc' => hpt c' (List.mem_cons_of_mem c hc')) (childSel c),
          ← hres]
  · intro p' b G _ _ _
    rfl
  · intro c cs ihP ihQ p' b G hcons hsel hG
    simp only [consistentL, Bool.and_eq_true] at hcons
    simp only [reproducesL, Bool.and_eq_true]
    constructor
    · refine ihP p' b G hcons.1 (hsel c (List.mem_cons_self c cs)) ?_
      intro q hq
      exact hG q (List.IsPrefix.trans (List.prefix_append p' [c.rname]) hq)
    · exact ihQ p' b G hcons.2 (fun c' hc' => hsel c' (List.mem_cons_of_mem c hc')) hG

theorem deriveOk :
    ∀ t : RNode, ∀ p inh G, consistentB t = true → wfB t = true →
      (∀ q, (p ++ [t.rname]) <+: q →
        applyFrom false G q = applyFrom inh (deriveNode p inh t) q) →
      reproducesB G p t = true := by
  refine RNode.indN
    (P := fun t => ∀ p inh G, consistentB t = true → wfB t = true →
      (∀ q, (p ++ [t.rname]) <+: q →
        applyFrom false G q = applyFrom inh (deriveNode p inh t) q) →
      reproducesB G p t = true)
    (Q := fun cs => ∀ p' inh G, consistentL cs = true → wfL cs = true →
      nodupNames cs = true →
      (∀ c ∈ cs, ∀ q, (p' ++ [c.rname]) <+: q →
        applyFrom false G q = applyFrom inh (deriveNode p' inh c) q) →
      reproducesL G p' cs = true)
    ?_ ?_ ?_ ?_
  · intro n s p inh G _ _ hG
    simp only [reproducesB, beq_iff_eq]
    rw [hG (p ++ [n]) (List.prefix_refl _)]
    simp only [deriveNode]
    by_cases hsi : s = inh
    · simp [hsi, applyFrom]
    · simp only [hsi, ite_false]
      rw [applyFrom_single, if_pos (isPrefixOf_of_pref _ _ (List.prefix_refl _))]
  · intro n s cs ihQ p inh G hcons hwf hG
    simp only [wfB, Bool.and_eq_true] at hwf
    obtain ⟨hnodup, hwfL⟩ := hwf
    cases s with
    | Included =>
        refine agreeNode (.rdir n .Included cs) p true G hcons (by simp [childSel, selOfBool]) ?_
        intro q hq
        have hq2 : (p ++ [n] : List String) <+: q := hq
        rw [hG q hq]
        simp only [deriveNode]
        cases inh with
        | true => simp [applyFrom]
        | false =>
            simp only [Bool.false_eq_true, if_false]
            rw [applyFrom_single, if_pos (isPrefixOf_of_pref _ _ hq2)]
    | Excluded =>
        refine agreeNode (.rdir n .Excluded cs) p false G hcons
          (by simp [childSel, selOfBool]) ?_
        intro q hq
        have hq2 : (p ++ [n] : List String) <+: q := hq
        rw [hG q hq]
        simp only [deriveNode]
        cases inh with
        | true =>
            simp only [if_true]
            rw [applyFrom_single, if_pos (isPrefixOf_of_pref _ _ hq2)]
        | false => simp [applyFrom]
    | Mixed =>
        cases cs with
        | nil => simp [consistentB] at hcons
        | cons c cs' =>
            simp only [consistentB, Bool.and_eq_true, beq_iff_eq] at hcons
            obtain ⟨hres, hconsL⟩ := hcons
            have childG : ∀ c' ∈ c :: cs', ∀ q, ((p ++ [n]) ++ [c'.rname]) <+: q →
                applyFrom false G q = applyFrom inh (deriveNode (p ++ [n]) inh c') q := by
              intro c' hc' q hq
              have hq' : (p ++ [n]) <+: q :=
                List.IsPrefix.trans (List.prefix_append (p ++ [n]) [c'.rname]) hq
              rw [hG q hq']
              simp only [deriveNode]
              exact deriveL_isolate (p ++ [n]) inh (c :: cs') hnodup c' hc' q hq inh
            have hrep : reproducesL G (p ++ [n]) (c :: cs') = true :=
              ihQ (p ++ [n]) inh G hconsL hwfL hnodup childG
            simp only [reproducesB, Bool.and_eq_true, beq_iff_eq]
            refine ⟨?_, hrep⟩
            have hpt : ∀ c' ∈ c :: cs', appliedSel G (p ++ [n]) c' = childSel c' := by
              intro c' hc'
              exact reproduces_appliedSel G (p ++ [n]) c'
                (reproducesL_forall G (p ++ [n]) _ hrep c' hc')
            simp only [appliedSel]
            rw [hpt c (List.mem_cons_self c cs'),
              appliedL_eq_resCombine G (p ++ [n]) cs'
                (fun c' hc' => hpt c' (List.mem_cons_of_mem c hc')) (childSel c),
              ← hres]
  · intro p' inh G _ _ _ _
    rfl
  · intro c cs ihP ihQ p' inh G hcons hwf hnodup hG
    simp only [consistentL, Bool.and_eq_true] at hcons
    simp only [wfL, Bool.and_eq_true] at hwf
    simp only [nodupNames, Bool.and_eq_true] at hnodup
    simp only [reproducesL, Bool.and_eq_true]
    constructor
    · exact ihP p' inh G hcons.1 hwf.1 (hG c (List.mem_cons_self c cs))
    · exact ihQ p' inh G hcons.2 hwf.2 hnodup.2
        (fun c' hc' => hG c' (List.mem_cons_of_mem c hc'))

/-- Claim C3, settled against the spec-modelled Rule Deriver: for every
resolved, well-formed tree (spec §3's resolution invariant, distinct
sibling names), applying the Deriver's ordered rules as an
override-by-specificity prefix filter reproduces `resolvedSelection`
exactly at every node of the tree. -/
theorem rule_deriver_round_trip (t : RNode) (hc : consistentB t = true)
    (hw : wfB t = true) : reproducesB (deriveRules t) [] t = true := by
  apply deriveOk t [] false (deriveRules t) hc hw
  intro q hq
  cases t with
  | rfile n s =>
      cases s with
      | true => simp [deriveRules, deriveNode]
      | false =>
          simp only [deriveRules, deriveNode, if_pos rfl]
          rw [applyFrom_exclude_single]
          rfl
  | rdir n s cs =>
      cases s with
      | Included => simp [deriveRules, deriveNode]
      | Excluded =>
          simp only [deriveRules, deriveNode, Bool.false_eq_true, if_false]
          rw [applyFrom_exclude_single]
          rfl
      | Mixed => simp [deriveRules, deriveNode]

/-! ### Witnesses -/

theorem find_files_full_sizes_witness : fullSizesOk treeFix = true :=
  find_files_full_sizes "root" recsFix treeFix find_files_fix

theorem find_files_own_sizes_witness :
    ownSizesOk treeFix = true ∧
    ((Entry.dir [] "d" 1 1 (some false) 0 []).append
      (.file [] "f" 2 (some false) 0)).sizeOf' = 1 + 2 ∧
    ((Entry.dir [] "d" 1 1 (some false) 0 []).append
      (.dir [] "e" 3 4 (some false) 0 [])).sizeOf' = 1 :=
  ⟨find_files_own_sizes.1 "root" recsFix treeFix find_files_fix,
   find_files_own_sizes.2.1 [] "d" 1 1 (some false) 0 [] [] "f" 2 (some false) 0,
   find_files_own_sizes.2.2 [] "d" 1 1 (some false) 0 [] (.dir [] "e" 3 4 (some false) 0 []) rfl⟩

theorem find_files_vanished_entry_witness :
    ∃ pe, getAt treeFix ["dir1"] = some pe ∧
      Entry.file ["dir1"] "gone" 0 (some false) 0 ∈ pe.childrenOf :=
  find_files_vanished_entry "root" [⟨[], ["dir1"], [("10k", some 10240)]⟩] []
    ⟨["dir1"], [], [("20k", some 20480), ("gone", none)]⟩ "gone" treeFix
    (by simpa [recsFix] using find_files_fix) (by simp)

theorem empty_record_noop_witness :
    processRecord treeFix ⟨["dir1"], [], []⟩ = some treeFix ∧ treeFix = treeFix := by
  have heval : processRecord treeFix ⟨["dir1"], [], []⟩ = some treeFix := by
    simp [processRecord, updateAt, updateAtL, appendRec, treeFix]
  exact ⟨heval, empty_record_noop treeFix ["dir1"] treeFix heval⟩

theorem noMixed_reachable_witness :
    noMixed treeFix = true ∧
    noMixed (applyMuts treeFix [⟨[0], 0, 2, 10⟩]) = true :=
  ⟨noMixed_reachable.1 "root" recsFix treeFix find_files_fix,
   noMixed_reachable.2 treeFix [⟨[0], 0, 2, 10⟩]
     (noMixed_reachable.1 "root" recsFix treeFix find_files_fix) (by simp)⟩

theorem human_size_total_witness :
    (0 : ℚ) ≤ 3 ∧ ∃ pre : String, ∃ i : Fin suffixes.length,
      human_size (some 3) = some (pre ++ suffixes.get i) :=
  ⟨by norm_num, human_size_total.2 3 (by norm_num)⟩

/-- A small resolved tree for the Rule Deriver witness: a Mixed root
holding one included and one excluded file. -/
def rnodeFix : RNode := .rdir "r" .Mixed [.rfile "a" true, .rfile "b" false]

theorem rule_deriver_round_trip_witness :
    consistentB rnodeFix = true ∧ wfB rnodeFix = true ∧
      reproducesB (deriveRules rnodeFix) [] rnodeFix = true := by
  have hc : consistentB rnodeFix = true := by
    simp [rnodeFix, consistentB, consistentL, resCombine, combine2, childSel, selOfBool]
  have hw : wfB rnodeFix = true := by
    simp [rnodeFix, wfB, wfL, nodupNames, RNode.rname]
  exact ⟨hc, hw, rule_deriver_round_trip rnodeFix hc hw⟩
